import Mathlib

/-!
# Transaction holder of the DHT context (llarp/dht/context.hpp)

A shallow embedding of `TXOwner`, `TX< K, V >` and `Context::TXHolder< K, V, K_Hash,
requestTimeoutMS >`.  The containers of the holder are embedded as follows:

* `waiting` (an unordered multimap) is the list of its `(key, owner)` entries in insertion
  order; `equal_range(key)` is the sublist of entries under `key`;
* `timeouts` (an unordered map) is the list of its `(key, deadline)` entries in the order
  the iteration of `Expire` visits them;
* `tx` (an unordered map owning the transactions) is a finite map given as a function from
  owners to optional transactions.

The pure virtual members of `TX` that act on the outside world (`Start`, `DoNextRequest`,
`SendReply`) have no body in the header; every operation of the holder returns, next to
the new holder, the list of member calls it made on transactions, each tagged with the
owner under which the transaction is (or is being) registered.  `NewTX` is the one
operation that can be left without a defined outcome (a call on a transaction that was
already destroyed); it returns an `Option`, and so do `step` and `run`.
-/

namespace llarp.dht

/-- Modelled from the spec: `Key_t` is declared in dht/key.hpp, which is not among the
sources.  The spec describes a key as a fixed-width identifier with bitwise XOR and a total
order by big-endian magnitude; a key is represented by that magnitude, `^^^` is the XOR and
`<` the order. -/
abbrev Key_t := Nat

/-- Modelled from the spec: `llarp_time_t` is declared in time.hpp, which is not among the
sources.  The spec describes the clock as monotonic milliseconds. -/
abbrev llarp_time_t := Nat

/-- Modelled from the spec: the key types of the holders (RouterID, service::Address,
service::Tag) are declared outside the sources; `data` is the conversion `target.data()`
to a `Key_t` used by `TX::AskNextPeer`. -/
class HasData (K : Type) where
  data : K → Key_t

instance : HasData Key_t := ⟨fun k => k⟩

/-- The pair (node, txid) of context.hpp lines 21-53. -/
structure TXOwner where
  node : Key_t
  txid : Nat
deriving DecidableEq

/-- The default constructed owner `TXOwner{}`. -/
instance : Inhabited TXOwner := ⟨⟨0, 0⟩⟩

/-- The data members of `TX< K, V >` (lines 68-72) together with the two pure virtual
members whose result the base class consumes: `Validate` (const) and `GetNextPeer`, which
maps the exclusion set to the peer it writes into `next`, or to `none` when it returns
false.  `peersAsked` (a `std::set`) is a list without repetitions. -/
structure TX (K V : Type) where
  target : K
  peersAsked : List Key_t
  valuesFound : List V
  whoasked : TXOwner
  Validate : V → Bool
  GetNextPeer : List Key_t → Option Key_t

/-- Member calls made on a transaction.  `SendReply` carries the `valuesFound` of the
transaction at the time of the call. -/
inductive Call (V : Type) where
  | Start (peer : TXOwner)
  | OnFound (askedPeer : Key_t) (value : V)
  | AskNextPeer (prevPeer : Key_t) (next : Option Key_t)
  | DoNextRequest (peer : Key_t)
  | SendReply (valuesFound : List V)
deriving DecidableEq

/-- A call together with the owner of the transaction it is made on. -/
abbrev Event (V : Type) := TXOwner × Call V

def Call.isStart {V : Type} : Call V → Bool
  | Call.Start _ => true
  | _ => false

def Call.isOnFound {V : Type} : Call V → Bool
  | Call.OnFound _ _ => true
  | _ => false

def Call.isSendReply {V : Type} : Call V → Bool
  | Call.SendReply _ => true
  | _ => false

def Call.isDoNextRequest {V : Type} : Call V → Bool
  | Call.DoNextRequest _ => true
  | _ => false

/-- The calls made on the transaction of owner `o`, in order. -/
def callsOn {V : Type} (o : TXOwner) (evs : List (Event V)) : List (Call V) :=
  (evs.filter (fun e => e.1 = o)).map (fun e => e.2)

/-- Number of `SendReply` calls made on the transaction of owner `o`. -/
def replyCount {V : Type} (o : TXOwner) (evs : List (Event V)) : Nat :=
  ((callsOn o evs).filter Call.isSendReply).length

/-- The body of `TX::OnFound` (lines 77-83). -/
def TX.OnFound {K V : Type} (t : TX K V) (askedPeer : Key_t) (value : V) : TX K V :=
  let t1 := { t with peersAsked := t.peersAsked.insert askedPeer }
  if t1.Validate value then { t1 with valuesFound := t1.valuesFound ++ [value] } else t1

/-- The body of `TX::AskNextPeer` (lines 95-124): the returned flag, the transaction
afterwards and the `DoNextRequest` calls issued. -/
def TX.AskNextPeer {K V : Type} [HasData K] (t : TX K V) (prevPeer : Key_t)
    (next : Option Key_t) : Bool × TX K V × List (Call V) :=
  let t1 := { t with peersAsked := t.peersAsked.insert prevPeer }
  let found : Option Key_t :=
    match next with
    | some n => some n
    | none => t1.GetNextPeer t1.peersAsked
  match found with
  | none => (false, t1, [])
  | some peer =>
    let targetKey : Key_t := HasData.data t1.target
    if (prevPeer ^^^ targetKey) < (peer ^^^ targetKey) then
      (false, t1, [])
    else
      (true, { t1 with peersAsked := t1.peersAsked.insert peer }, [Call.DoNextRequest peer])

/-- The three containers of `Context::TXHolder` (lines 273-280). -/
structure TXHolder (K V : Type) where
  waiting : List (K × TXOwner)
  timeouts : List (K × llarp_time_t)
  tx : TXOwner → Option (TX K V)

/-- The freshly constructed holder. -/
def TXHolder.empty {K V : Type} : TXHolder K V :=
  { waiting := [], timeouts := [], tx := fun _ => none }

/-- The owners `waiting.equal_range(key)` ranges over, in order. -/
def TXHolder.waitersOf {K V : Type} [DecidableEq K] (h : TXHolder K V) (key : K) :
    List TXOwner :=
  (h.waiting.filter (fun w => w.1 = key)).map (fun w => w.2)

/-- The test `timeouts.find(target) != timeouts.end()` of `HasLookupFor` (lines 292-296). -/
def TXHolder.HasLookupFor {K V : Type} [DecidableEq K] (h : TXHolder K V) (target : K) :
    Bool :=
  h.timeouts.any (fun e => e.1 = target)

/-- The body of `GetPendingLookupFrom` (lines 282-290). -/
def TXHolder.GetPendingLookupFrom {K V : Type} (h : TXHolder K V) (owner : TXOwner) :
    Option (TX K V) :=
  h.tx owner

/-- The body of `HasPendingLookupFrom` (lines 298-302). -/
def TXHolder.HasPendingLookupFrom {K V : Type} (h : TXHolder K V) (owner : TXOwner) :
    Bool :=
  (h.GetPendingLookupFrom owner).isSome

/-- The container updates of `NewTX` (lines 309-318), made before the call of `Start`:
`tx.emplace` keeps an entry that is already present, the askpeer is inserted into
`waiting`, and the deadline is inserted into `timeouts` when the key has no entry. -/
def TXHolder.NewTX_containers {K V : Type} [DecidableEq K] (requestTimeoutMS : Nat)
    (time_now_ms : llarp_time_t) (h : TXHolder K V) (askpeer whoasked : TXOwner) (k : K)
    (t : TX K V) : TXHolder K V :=
  let _ := whoasked
  let tx1 : TXOwner → Option (TX K V) :=
    match h.tx askpeer with
    | some _ => h.tx
    | none => Function.update h.tx askpeer (some t)
  let waiting1 := h.waiting ++ [(k, askpeer)]
  let timeouts1 :=
    if h.HasLookupFor k then h.timeouts
    else h.timeouts ++ [(k, time_now_ms + requestTimeoutMS)]
  { waiting := waiting1, timeouts := timeouts1, tx := tx1 }

/-- The body of `NewTX` (lines 304-321) for the template argument `requestTimeoutMS` and
the clock reading `time_now_ms`.  The `std::unique_ptr` built from `t` at line 309 owns
`t`; when `tx.emplace` finds the askpeer already present nothing takes it over and `t` is
destroyed at the end of that statement.  Line 320 calls `t->Start(askpeer)` when the key
had no waiter: on a destroyed `t` that call has no defined outcome and the result is
`none`. -/
def TXHolder.NewTX {K V : Type} [DecidableEq K] (requestTimeoutMS : Nat)
    (time_now_ms : llarp_time_t) (h : TXHolder K V) (askpeer whoasked : TXOwner) (k : K)
    (t : TX K V) : Option (TXHolder K V × List (Event V)) :=
  let emplaced := (h.tx askpeer).isNone
  let count := (h.waitersOf k).length
  let h1 := h.NewTX_containers requestTimeoutMS time_now_ms askpeer whoasked k t
  if count = 0 then
    if emplaced then some (h1, [(askpeer, Call.Start askpeer)]) else none
  else some (h1, [])

/-- The loop of `Inform` (lines 353-367) over the owners of the range, acting on `tx`. -/
def informLoop {K V : Type} (frm : TXOwner) (values : List V) (sendreply : Bool) :
    List TXOwner → (TXOwner → Option (TX K V)) →
      (TXOwner → Option (TX K V)) × List (Event V)
  | [], tx => (tx, [])
  | o :: rest, tx =>
    match tx o with
    | none => informLoop frm values sendreply rest tx
    | some t =>
      let t1 := values.foldl (fun acc v => acc.OnFound frm.node v) t
      let found : List (Event V) := values.map (fun v => (o, Call.OnFound frm.node v))
      if sendreply then
        let r := informLoop frm values sendreply rest (Function.update tx o none)
        (r.1, found ++ (o, Call.SendReply t1.valuesFound) :: r.2)
      else
        let r := informLoop frm values sendreply rest (Function.update tx o (some t1))
        (r.1, found ++ r.2)

/-- The body of `Inform` (lines 346-374). -/
def TXHolder.Inform {K V : Type} [DecidableEq K] (h : TXHolder K V) (frm : TXOwner)
    (key : K) (values : List V) (sendreply : Bool) (removeTimeouts : Bool) :
    TXHolder K V × List (Event V) :=
  let r := informLoop frm values sendreply (h.waitersOf key) h.tx
  ({ waiting := if sendreply then h.waiting.filter (fun w => w.1 ≠ key) else h.waiting,
     timeouts := if removeTimeouts then h.timeouts.filter (fun e => e.1 ≠ key)
                 else h.timeouts,
     tx := r.1 }, r.2)

/-- The body of `Found` (lines 340-344); `removeTimeouts` takes its default, true. -/
def TXHolder.Found {K V : Type} [DecidableEq K] (h : TXHolder K V) (frm : TXOwner) (k : K)
    (values : List V) : TXHolder K V × List (Event V) :=
  h.Inform frm k values true true

/-- The body of `NotFound` (lines 324-338). -/
def TXHolder.NotFound {K V : Type} [DecidableEq K] [HasData K] (h : TXHolder K V)
    (frm : TXOwner) (next : Option Key_t) : TXHolder K V × List (Event V) :=
  match h.tx frm with
  | none => (h, [])
  | some t =>
    let a := t.AskNextPeer frm.node next
    let sendReply := !a.1
    let h1 : TXHolder K V := { h with tx := Function.update h.tx frm (some a.2.1) }
    let r := h1.Inform frm a.2.1.target [] sendReply sendReply
    (r.1, (frm, Call.AskNextPeer frm.node next) :: a.2.2.map (fun c => (frm, c)) ++ r.2)

/-- The test of `Expire` (line 382) on a stored deadline. -/
def expired (requestTimeoutMS : Nat) (now deadline : Nat) : Bool :=
  decide (now > deadline) && decide (now - deadline ≥ requestTimeoutMS)

/-- The loop of `Expire` (lines 379-389) over the entries of `timeouts` still to visit.
The `timeouts` of the result are the entries the loop did not erase; `Inform` is called
with `removeTimeouts = false` and does not touch them. -/
def expireLoop {K V : Type} [DecidableEq K] (requestTimeoutMS : Nat) (now : llarp_time_t) :
    List (K × llarp_time_t) → TXHolder K V → TXHolder K V × List (Event V)
  | [], h => ({ h with timeouts := [] }, [])
  | (k, d) :: rest, h =>
    if expired requestTimeoutMS now d then
      let r1 := h.Inform default k [] true false
      let r2 := expireLoop requestTimeoutMS now rest r1.1
      (r2.1, r1.2 ++ r2.2)
    else
      let r := expireLoop requestTimeoutMS now rest h
      ({ r.1 with timeouts := (k, d) :: r.1.timeouts }, r.2)

/-- The body of `Expire` (lines 376-390). -/
def TXHolder.Expire {K V : Type} [DecidableEq K] (requestTimeoutMS : Nat)
    (h : TXHolder K V) (now : llarp_time_t) : TXHolder K V × List (Event V) :=
  expireLoop requestTimeoutMS now h.timeouts h

/-- The operations of the holder that change it. -/
inductive Op (K V : Type) where
  | NewTX (time_now_ms : llarp_time_t) (askpeer whoasked : TXOwner) (k : K) (t : TX K V)
  | Found (frm : TXOwner) (k : K) (values : List V)
  | NotFound (frm : TXOwner) (next : Option Key_t)
  | Expire (now : llarp_time_t)

/-- One operation applied to a holder; `none` when the operation has no defined outcome. -/
def step {K V : Type} [DecidableEq K] [HasData K] (requestTimeoutMS : Nat)
    (h : TXHolder K V) : Op K V → Option (TXHolder K V × List (Event V))
  | Op.NewTX now askpeer whoasked k t => h.NewTX requestTimeoutMS now askpeer whoasked k t
  | Op.Found frm k values => some (h.Found frm k values)
  | Op.NotFound frm next => some (h.NotFound frm next)
  | Op.Expire now => some (h.Expire requestTimeoutMS now)

/-- A sequence of operations applied in order; the calls of all steps are concatenated.
The result is `none` when one of the operations has no defined outcome. -/
def run {K V : Type} [DecidableEq K] [HasData K] (requestTimeoutMS : Nat) :
    TXHolder K V → List (Op K V) → Option (TXHolder K V × List (Event V))
  | h, [] => some (h, [])
  | h, op :: ops =>
    match step requestTimeoutMS h op with
    | none => none
    | some r1 =>
      match run requestTimeoutMS r1.1 ops with
      | none => none
      | some r2 => some (r2.1, r1.2 ++ r2.2)

/-- A request handed to `NewTX`: clock reading, askpeer, whoasked and the transaction. -/
structure Request (K V : Type) where
  time_now_ms : llarp_time_t
  askpeer : TXOwner
  whoasked : TXOwner
  t : TX K V

/-- The `NewTX` operation of a request for key `k`. -/
def Request.op {K V : Type} (k : K) (q : Request K V) : Op K V :=
  Op.NewTX q.time_now_ms q.askpeer q.whoasked k q.t

/-- One when owner `o` has a transaction in `tx`, zero otherwise. -/
def TXHolder.live {K V : Type} (h : TXHolder K V) (o : TXOwner) : Nat :=
  if (h.tx o).isSome then 1 else 0

/-- Number of `NewTX` operations of a sequence that register owner `o`. -/
def regCount {K V : Type} (o : TXOwner) : List (Op K V) → Nat
  | [] => 0
  | Op.NewTX _ askpeer _ _ _ :: ops => (if askpeer = o then 1 else 0) + regCount o ops
  | _ :: ops => regCount o ops

/-- The caller obligation on `NewTX`: the askpeer is not a key of `tx`. -/
def admissible {K V : Type} (h : TXHolder K V) : Op K V → Bool
  | Op.NewTX _ askpeer _ _ _ => (h.tx askpeer).isNone
  | _ => true

/-- Every `NewTX` of the sequence meets its obligation in the state it is applied to. -/
def admissibleRun {K V : Type} [DecidableEq K] [HasData K] (requestTimeoutMS : Nat) :
    TXHolder K V → List (Op K V) → Bool
  | _, [] => true
  | h, op :: ops =>
    admissible h op &&
      match step requestTimeoutMS h op with
      | some r => admissibleRun requestTimeoutMS r.1 ops
      | none => false

/-- The keys of the entries of `timeouts` on which the test of `Expire` succeeds. -/
def expiredKeys {K : Type} (requestTimeoutMS : Nat) (now : llarp_time_t)
    (es : List (K × llarp_time_t)) : List K :=
  (es.filter (fun e => expired requestTimeoutMS now e.2)).map (fun e => e.1)

/-- Owner `o` is registered in `ws` under one of the keys `ks`. -/
def waitsOnAny {K : Type} (ws : List (K × TXOwner)) (ks : List K) (o : TXOwner) : Prop :=
  ∃ k ∈ ks, (k, o) ∈ ws

instance {K : Type} [DecidableEq K] (ws : List (K × TXOwner)) (ks : List K) (o : TXOwner) :
    Decidable (waitsOnAny ws ks o) := by
  unfold waitsOnAny; infer_instance

/-! ## Owner comparison and hash -/

/-- The body of `TXOwner::operator==` (lines 32-36). -/
def TXOwner.eq (a other : TXOwner) : Bool :=
  decide (a.txid = other.txid) && decide (a.node = other.node)

/-- The body of `TXOwner::operator<` (lines 37-41). -/
def TXOwner.lt (a other : TXOwner) : Bool :=
  decide (a.txid < other.txid) || decide (a.node < other.node)

/-- Byte `i` (0 to 31) of a key: a key is 32 bytes and its order is by big-endian
magnitude, so byte 0 is the most significant one. -/
def keyByte (k : Key_t) (i : Nat) : Nat :=
  (k / 256 ^ (31 - i)) % 256

/-- The value `sz2` that `memcpy(&sz2, &o.node[0], sizeof(std::size_t))` (line 49) leaves
in a 64-bit `std::size_t` on a little-endian target: the first 8 bytes of the key, byte 0
being the least significant. -/
def firstWord (k : Key_t) : Nat :=
  (List.range 8).foldl (fun acc i => acc + keyByte k i * 256 ^ i) 0

/-- The body of `TXOwner::Hash::operator()` (lines 45-51) for a 64-bit `std::size_t`; the
shift wraps at 64 bits. -/
def TXOwner.Hash (o : TXOwner) : Nat :=
  o.txid ^^^ ((firstWord o.node <<< 1) % 2 ^ 64)

/-! ## Router lookup of the context -/

/-- Modelled from the spec: `Bucket::FindClosest` is declared in dht/bucket.hpp, which is
not among the sources.  The spec describes it as the single closest entry to `target` by
XOR distance, excluding nothing, returning nothing only when the table is empty.  The
table is the list of the keys of its entries. -/
def FindClosest (nodes : List Key_t) (target : Key_t) : Option Key_t :=
  nodes.foldl
    (fun best k =>
      match best with
      | none => some k
      | some b => if (k ^^^ target) < (b ^^^ target) then some k else some b)
    none

/-- The members of `Context` that `LookupRouter` reads (lines 255-267, 399, 424): the
router table `nodes`, `ourKey` and the holder of the pending router lookups. -/
structure Context (K V : Type) where
  nodes : List Key_t
  ourKey : Key_t
  pendingRouterLookups : TXHolder K V

/-- The body of `Context::LookupRouter` (lines 165-173).  `LookupRouterRecursive` is only
declared in the header (lines 160-163); its effect on the context is the argument
`LookupRouterRecursive`, taking target, whoasked, whoaskedTX, askpeer and the handler. -/
def Context.LookupRouter {K V H : Type} [HasData K]
    (LookupRouterRecursive : Context K V → K → Key_t → Nat → Key_t → H → Context K V)
    (ctx : Context K V) (target : K) (result : H) : Bool × Context K V :=
  match FindClosest ctx.nodes (HasData.data target) with
  | none => (false, ctx)
  | some askpeer => (true, LookupRouterRecursive ctx target ctx.ourKey 0 askpeer result)

/-- The body of `Context::HasRouterLookup` (lines 175-179). -/
def Context.HasRouterLookup {K V : Type} [DecidableEq K] (ctx : Context K V) (target : K) :
    Bool :=
  ctx.pendingRouterLookups.HasLookupFor target

/-! ## Caller obligations and consistency of the holder -/

/-- The caller obligations on `NewTX`: the askpeer is not a key of `tx` and the key is the
target of the transaction. -/
def registersFresh {K V : Type} [DecidableEq K] (h : TXHolder K V) : Op K V → Bool
  | Op.NewTX _ askpeer _ k t => (h.tx askpeer).isNone && decide (k = t.target)
  | _ => true

/-- Every `NewTX` of the sequence meets both obligations in the state it is applied to. -/
def registersFreshRun {K V : Type} [DecidableEq K] [HasData K] (requestTimeoutMS : Nat) :
    TXHolder K V → List (Op K V) → Bool
  | _, [] => true
  | h, op :: ops =>
    registersFresh h op &&
      match step requestTimeoutMS h op with
      | some r => registersFreshRun requestTimeoutMS r.1 ops
      | none => false

/-- The keys of `timeouts` are pairwise distinct and a key has an entry exactly when it
has a waiter. -/
def TimeoutsMatch {K V : Type} (h : TXHolder K V) : Prop :=
  (h.timeouts.map (fun e => e.1)).Nodup ∧
  ∀ k, (∃ d, (k, d) ∈ h.timeouts) ↔ ∃ o, (k, o) ∈ h.waiting

/-- Every entry of `waiting` names an owner whose transaction has the entry key as target,
and every transaction is registered in `waiting` under its target. -/
def OwnersMatch {K V : Type} (h : TXHolder K V) : Prop :=
  (∀ k o, (k, o) ∈ h.waiting → ∃ t, h.tx o = some t ∧ t.target = k) ∧
  (∀ o t, h.tx o = some t → (t.target, o) ∈ h.waiting)

/-! ## Concrete transactions and holders -/

/-- A transaction for `target` without hint source: it accepts the even values and its
`GetNextPeer` finds no peer. -/
def sampleTX (target : Key_t) : TX Key_t Nat :=
  { target := target, peersAsked := [], valuesFound := [], whoasked := default,
    Validate := fun v => v % 2 = 0, GetNextPeer := fun _ => none }

/-- The holder and the calls a sequence of operations leaves when applied to the empty
holder with `requestTimeoutMS` = 5000 (the empty holder and no call when the sequence has
no defined outcome). -/
def outcomeAfter (ops : List (Op Key_t Nat)) : TXHolder Key_t Nat × List (Event Nat) :=
  match run 5000 TXHolder.empty ops with
  | some r => r
  | none => (TXHolder.empty, [])

/-- The holder a sequence of operations leaves when applied to the empty holder. -/
def holderAfter (ops : List (Op Key_t Nat)) : TXHolder Key_t Nat :=
  (outcomeAfter ops).1

/-- The holder after two lookups for key 7 were registered at clock readings 1000 and
1010, under the owners (1, 1) and (2, 1). -/
def sampleHolder : TXHolder Key_t Nat :=
  holderAfter
    [Op.NewTX 1000 ⟨1, 1⟩ default 7 (sampleTX 7),
     Op.NewTX 1010 ⟨2, 1⟩ default 7 (sampleTX 7)]

/-- A sequence of operations: two lookups for key 7 answered by one `Found`, then owner
(1, 1) registered again for key 8 and answered negatively, then a lookup for key 9 that
only the cleanup at clock reading 20000 ends. -/
def sampleOps : List (Op Key_t Nat) :=
  [Op.NewTX 1000 ⟨1, 1⟩ default 7 (sampleTX 7),
   Op.NewTX 1010 ⟨2, 1⟩ default 7 (sampleTX 7),
   Op.Found ⟨1, 1⟩ 7 [2, 3, 4],
   Op.NewTX 2000 ⟨1, 1⟩ default 8 (sampleTX 8),
   Op.NotFound ⟨1, 1⟩ none,
   Op.NewTX 3000 ⟨3, 1⟩ default 9 (sampleTX 9),
   Op.Expire 20000]

/-- The holder after one lookup for key 7 was registered at clock reading 1000 under the
owner (1, 1): the first waiter of the key. -/
def firstLookup : TXHolder Key_t Nat :=
  holderAfter [Op.NewTX 1000 ⟨1, 1⟩ default 7 (sampleTX 7)]

/-- The holder after lookups for key 7 (owner (1, 1), clock 0) and key 8 (owner (2, 1),
clock 6000) were registered and `NewTX` was called once more for key 8 with the owner
(1, 1), which is still in `tx`. -/
def sharedOwner : TXHolder Key_t Nat :=
  holderAfter
    [Op.NewTX 0 ⟨1, 1⟩ default 7 (sampleTX 7),
     Op.NewTX 6000 ⟨2, 1⟩ default 8 (sampleTX 8),
     Op.NewTX 6001 ⟨1, 1⟩ default 8 (sampleTX 8)]

/-- The holder after a lookup for key 0 was registered under the owner (128, 1), the peer
128 having been asked. -/
def chainHolder : TXHolder Key_t Nat :=
  holderAfter [Op.NewTX 1000 ⟨128, 1⟩ default 0 (sampleTX 0)]

/-- A transaction for key 7 that has asked peer 3 and holds the value 10. -/
def busyTX : TX Key_t Nat :=
  { target := 7, peersAsked := [3], valuesFound := [10], whoasked := default,
    Validate := fun v => v % 2 = 0, GetNextPeer := fun _ => none }

/-- A context whose router table holds the single peer 1. -/
def sampleContext : Context Key_t Nat :=
  { nodes := [1], ourKey := 99, pendingRouterLookups := TXHolder.empty }

/-- A stand-in for `LookupRouterRecursive`: it registers a transaction for the target
under the owner (askpeer, 1) at clock reading 0. -/
def sampleRecursive (ctx : Context Key_t Nat) (target : Key_t) (whoasked : Key_t)
    (whoaskedTX : Nat) (askpeer : Key_t) (_result : Unit) : Context Key_t Nat :=
  match ctx.pendingRouterLookups.NewTX 5000 0 ⟨askpeer, 1⟩ ⟨whoasked, whoaskedTX⟩ target
      (sampleTX target) with
  | some r => { ctx with pendingRouterLookups := r.1 }
  | none => ctx

/-- A sequence of operations that leaves the two lookups for key 7 pending: a third
lookup, for key 9, is registered and answered. -/
def liveOps : List (Op Key_t Nat) :=
  [Op.NewTX 1000 ⟨1, 1⟩ default 7 (sampleTX 7),
   Op.NewTX 1010 ⟨2, 1⟩ default 7 (sampleTX 7),
   Op.NewTX 2000 ⟨3, 1⟩ default 9 (sampleTX 9),
   Op.Found ⟨3, 1⟩ 9 [2]]

/-- An owner whose node starts with the bytes 01 02 03 04 05 06 07 08, all other bytes
being zero, with txid 5. -/
def sampleOwner : TXOwner :=
  ⟨0x0102030405060708 * 2 ^ 192, 5⟩

/-! ## Elementary facts about the containers -/

theorem waitersOf_append {K V : Type} [DecidableEq K] (h : TXHolder K V) (k k2 : K)
    (o : TXOwner) :
    ({ h with waiting := h.waiting ++ [(k2, o)] } : TXHolder K V).waitersOf k =
      h.waitersOf k ++ (if k2 = k then [o] else []) := by
  unfold TXHolder.waitersOf
  by_cases hk : k2 = k <;> simp [List.filter_append, List.filter_cons, hk]

theorem mem_waitersOf {K V : Type} [DecidableEq K] (h : TXHolder K V) (k : K)
    (o : TXOwner) : o ∈ h.waitersOf k ↔ (k, o) ∈ h.waiting := by
  unfold TXHolder.waitersOf
  simp only [List.mem_map, List.mem_filter, decide_eq_true_eq]
  constructor
  · rintro ⟨⟨k2, o2⟩, ⟨hm, hk⟩, ho⟩
    simp only at hk ho
    subst hk; subst ho; exact hm
  · intro hm
    exact ⟨(k, o), ⟨hm, rfl⟩, rfl⟩

theorem NewTX_waiting {K V : Type} [DecidableEq K] (T : Nat) (now : llarp_time_t)
    (h : TXHolder K V) (askpeer whoasked : TXOwner) (k : K) (t : TX K V) :
    (h.NewTX_containers T now askpeer whoasked k t).waiting = h.waiting ++ [(k, askpeer)] :=
  rfl

theorem NewTX_waitersOf {K V : Type} [DecidableEq K] (T : Nat) (now : llarp_time_t)
    (h : TXHolder K V) (askpeer whoasked : TXOwner) (k : K) (t : TX K V) :
    (h.NewTX_containers T now askpeer whoasked k t).waitersOf k =
      h.waitersOf k ++ [askpeer] := by
  simp [TXHolder.NewTX_containers, TXHolder.waitersOf]

theorem NewTX_eq {K V : Type} [DecidableEq K] (T : Nat) (now : llarp_time_t)
    (h : TXHolder K V) (askpeer whoasked : TXOwner) (k : K) (t : TX K V) :
    h.NewTX T now askpeer whoasked k t =
      if h.waitersOf k = [] then
        (if (h.tx askpeer).isNone = true then
          some (h.NewTX_containers T now askpeer whoasked k t, [(askpeer, Call.Start askpeer)])
        else none)
      else some (h.NewTX_containers T now askpeer whoasked k t, []) := by
  unfold TXHolder.NewTX
  by_cases hw : h.waitersOf k = []
  · cases hq : h.tx askpeer <;> simp [hw, hq]
  · simp [hw, List.length_eq_zero]

theorem NewTX_some {K V : Type} [DecidableEq K] (T : Nat) (now : llarp_time_t)
    (h : TXHolder K V) (askpeer whoasked : TXOwner) (k : K) (t : TX K V)
    (r : TXHolder K V × List (Event V)) (hr : h.NewTX T now askpeer whoasked k t = some r) :
    r.1 = h.NewTX_containers T now askpeer whoasked k t ∧
    r.2 = (if h.waitersOf k = [] then [(askpeer, Call.Start askpeer)] else []) ∧
    (h.waitersOf k = [] → h.tx askpeer = none) := by
  rw [NewTX_eq] at hr
  by_cases hw : h.waitersOf k = []
  · cases hq : h.tx askpeer with
    | none =>
      simp only [hw, hq, Option.isNone_none, if_true, Option.some.injEq] at hr
      subst hr
      simp [hw]
    | some t0 => simp [hw, hq] at hr
  · simp only [hw, if_false, Option.some.injEq] at hr
    subst hr
    simp [hw]

theorem NewTX_tx {K V : Type} [DecidableEq K] (T : Nat) (now : llarp_time_t)
    (h : TXHolder K V) (askpeer whoasked : TXOwner) (k : K) (t : TX K V) (o : TXOwner) :
    (h.NewTX_containers T now askpeer whoasked k t).tx o =
      if o = askpeer then (match h.tx askpeer with | some t0 => some t0 | none => some t)
      else h.tx o := by
  unfold TXHolder.NewTX_containers
  cases hq : h.tx askpeer with
  | none =>
    by_cases ho : o = askpeer
    · subst ho; simp
    · simp [Function.update, ho]
  | some t0 =>
    by_cases ho : o = askpeer
    · subst ho; simp [hq]
    · simp [ho]

theorem run_cons {K V : Type} [DecidableEq K] [HasData K] (T : Nat) (h : TXHolder K V)
    (op : Op K V) (ops : List (Op K V)) (r : TXHolder K V × List (Event V)) :
    run T h (op :: ops) = some r ↔
      ∃ r1 r2, step T h op = some r1 ∧ run T r1.1 ops = some r2 ∧
        r = (r2.1, r1.2 ++ r2.2) := by
  cases hs : step T h op with
  | none => simp [run, hs]
  | some r1 =>
    cases hr : run T r1.1 ops with
    | none =>
      simp only [run, hs, hr]
      constructor
      · intro he; cases he
      · rintro ⟨q1, q2, e1, e2, _⟩
        cases e1
        rw [hr] at e2
        cases e2
    | some r2 =>
      simp only [run, hs, hr]
      constructor
      · intro he; exact ⟨r1, r2, rfl, hr, (Option.some.inj he).symm⟩
      · rintro ⟨q1, q2, e1, e2, e3⟩
        cases e1
        rw [hr] at e2
        cases e2
        rw [e3]

/-! ## Coalescing of lookups for one key -/

theorem run_NewTX_piggyback {K V : Type} [DecidableEq K] [HasData K] (T : Nat) (k : K)
    (reqs : List (Request K V)) :
    ∀ h : TXHolder K V, h.waitersOf k ≠ [] →
      ∃ r, run T h (reqs.map (Request.op k)) = some r ∧ r.2 = [] ∧
        r.1.waitersOf k = h.waitersOf k ++ reqs.map (fun q => q.askpeer) := by
  induction reqs with
  | nil => intro h _; exact ⟨(h, []), rfl, rfl, by simp⟩
  | cons q qs ih =>
    intro h hne
    have hw := NewTX_waitersOf T q.time_now_ms h q.askpeer q.whoasked k q.t
    have hs : step T h (Request.op k q) =
        some (h.NewTX_containers T q.time_now_ms q.askpeer q.whoasked k q.t, []) := by
      simp only [step, Request.op]
      rw [NewTX_eq, if_neg hne]
    have hne2 : (h.NewTX_containers T q.time_now_ms q.askpeer q.whoasked k q.t).waitersOf k
        ≠ [] := by
      rw [hw]; simp
    obtain ⟨r2, hr2, h1, h2⟩ := ih _ hne2
    refine ⟨(r2.1, [] ++ r2.2), ?_, ?_, ?_⟩
    · rw [List.map_cons, run_cons]
      exact ⟨_, r2, hs, hr2, rfl⟩
    · simp [h1]
    · simp only []
      rw [h2, hw]; simp

theorem run_NewTX_tx {K V : Type} [DecidableEq K] [HasData K] (T : Nat) (k : K)
    (reqs : List (Request K V)) :
    ∀ (h : TXHolder K V) (r : TXHolder K V × List (Event V)),
      run T h (reqs.map (Request.op k)) = some r →
      (∀ o t, h.tx o = some t → r.1.tx o = some t) ∧
      ((reqs.map (fun q => q.askpeer)).Nodup → (∀ q ∈ reqs, h.tx q.askpeer = none) →
        ∀ q ∈ reqs, r.1.tx q.askpeer = some q.t) := by
  induction reqs with
  | nil =>
    intro h r hr
    simp only [List.map_nil, run, Option.some.injEq] at hr
    subst hr
    simp
  | cons q qs ih =>
    intro h r hr
    rw [List.map_cons, run_cons] at hr
    obtain ⟨r1, r2, hs, hr2, he⟩ := hr
    simp only [step, Request.op] at hs
    have hc := (NewTX_some T q.time_now_ms h q.askpeer q.whoasked k q.t r1 hs).1
    have htx := NewTX_tx T q.time_now_ms h q.askpeer q.whoasked k q.t
    obtain ⟨ih1, ih2⟩ := ih r1.1 r2 hr2
    subst he
    simp only []
    rw [hc] at ih1 ih2
    refine ⟨?_, ?_⟩
    · intro o t hot
      apply ih1
      rw [htx]
      by_cases ho : o = q.askpeer
      · subst ho; simp [hot]
      · simp [ho, hot]
    · intro hnd hnone p hp
      rw [List.map_cons, List.nodup_cons] at hnd
      rcases List.mem_cons.mp hp with hpq | hpq
      · subst hpq
        apply ih1
        rw [htx]
        simp [hnone p (List.mem_cons_self _ _)]
      · apply ih2 hnd.2 _ p hpq
        intro p2 hp2
        rw [htx]
        have hne : p2.askpeer ≠ q.askpeer := by
          intro heq
          exact hnd.1 (heq ▸ List.mem_map_of_mem (fun q => q.askpeer) hp2)
        simp [hne, hnone p2 (List.mem_cons_of_mem _ hp2)]

/-- C1, as the code has it: `NewTX` invokes `t->Start(askpeer)` exactly once when the key
had no waiter before the call and the askpeer is not already a key of `tx`, and makes no
call at all when the key already had a waiter; and from the empty holder, the requests
`q :: qs` for one key `k` with pairwise distinct askpeers all return, start only the first
transaction, leave every askpeer registered as a waiter of `k`, in order, and leave every
transaction in `tx` under its askpeer. -/
theorem NewTX_coalescing {K V : Type} [DecidableEq K] [HasData K] (T : Nat) (k : K) :
    (∀ (now : llarp_time_t) (h : TXHolder K V) (askpeer whoasked : TXOwner) (t : TX K V),
      (h.waitersOf k = [] → h.tx askpeer = none →
        h.NewTX T now askpeer whoasked k t =
          some (h.NewTX_containers T now askpeer whoasked k t,
            [(askpeer, Call.Start askpeer)])) ∧
      (h.waitersOf k ≠ [] →
        h.NewTX T now askpeer whoasked k t =
          some (h.NewTX_containers T now askpeer whoasked k t, []))) ∧
    (∀ (q : Request K V) (qs : List (Request K V)),
      ((q :: qs).map (fun p => p.askpeer)).Nodup →
        ∃ r, run T TXHolder.empty ((q :: qs).map (Request.op k)) = some r ∧
          r.2 = [(q.askpeer, Call.Start q.askpeer)] ∧
          r.1.waitersOf k = (q :: qs).map (fun p => p.askpeer) ∧
          ∀ p ∈ q :: qs, r.1.tx p.askpeer = some p.t) := by
  refine ⟨?_, ?_⟩
  · intro now h askpeer whoasked t
    rw [NewTX_eq]
    constructor
    · intro he hq; simp [he, hq]
    · intro hne; simp [hne]
  · intro q qs hnd
    have hempty : (TXHolder.empty : TXHolder K V).waitersOf k = [] := rfl
    have hw := NewTX_waitersOf T q.time_now_ms (TXHolder.empty : TXHolder K V) q.askpeer
      q.whoasked k q.t
    have hs : step T (TXHolder.empty : TXHolder K V) (Request.op k q) =
        some ((TXHolder.empty : TXHolder K V).NewTX_containers T q.time_now_ms q.askpeer
          q.whoasked k q.t, [(q.askpeer, Call.Start q.askpeer)]) := by
      simp only [step, Request.op]
      rw [NewTX_eq, if_pos hempty]
      rfl
    have hne2 : ((TXHolder.empty : TXHolder K V).NewTX_containers T q.time_now_ms q.askpeer
        q.whoasked k q.t).waitersOf k ≠ [] := by
      rw [hw]; simp
    obtain ⟨r2, hr2, h1, h2⟩ := run_NewTX_piggyback T k qs _ hne2
    have hrun : run T (TXHolder.empty : TXHolder K V) ((q :: qs).map (Request.op k)) =
        some (r2.1, [(q.askpeer, Call.Start q.askpeer)] ++ r2.2) := by
      rw [List.map_cons, run_cons]
      exact ⟨_, r2, hs, hr2, rfl⟩
    refine ⟨_, hrun, ?_, ?_, ?_⟩
    · simp [h1]
    · simp only []
      rw [h2, hw]; simp [hempty]
    · exact (run_NewTX_tx T k (q :: qs) TXHolder.empty _ hrun).2 hnd (fun _ _ => rfl)

theorem NewTX_coalescing_witness :
    (([⟨1000, ⟨1, 1⟩, default, sampleTX 7⟩, ⟨1010, ⟨2, 1⟩, default, sampleTX 7⟩] :
      List (Request Key_t Nat)).map (fun p => p.askpeer)).Nodup ∧
    ∃ r, run 5000 (TXHolder.empty : TXHolder Key_t Nat)
        ([⟨1000, ⟨1, 1⟩, default, sampleTX 7⟩, ⟨1010, ⟨2, 1⟩, default, sampleTX 7⟩].map
          (Request.op 7)) = some r ∧
      r.2 = [(⟨1, 1⟩, Call.Start ⟨1, 1⟩)] ∧
      r.1.waitersOf 7 = [⟨1, 1⟩, ⟨2, 1⟩] :=
  ⟨by decide,
    ((NewTX_coalescing 5000 (7 : Key_t)).2 ⟨1000, ⟨1, 1⟩, default, sampleTX 7⟩
      [⟨1010, ⟨2, 1⟩, default, sampleTX 7⟩] (by decide)).imp
      (fun _ hr => ⟨hr.1, hr.2.1, hr.2.2.1⟩)⟩

/-- C1 fails as stated: in `firstLookup` key 8 has no waiter and the askpeer (1, 1) is
already a key of `tx`; `tx.emplace` does not take the transaction handed in, which is
destroyed, and `NewTX` for key 8 has no defined outcome, so it does not invoke `Start` on
the transaction exactly once. -/
theorem NewTX_start_counterexample :
    firstLookup.waitersOf 8 = [] ∧
    (firstLookup.tx ⟨1, 1⟩).isSome = true ∧
    ¬ ∃ r, firstLookup.NewTX 5000 2000 ⟨1, 1⟩ default 8 (sampleTX 8) = some r ∧
        r.2 = [(⟨1, 1⟩, Call.Start ⟨1, 1⟩)] := by
  refine ⟨by decide, by decide, ?_⟩
  rintro ⟨r, hr, _⟩
  have hnone : (firstLookup.NewTX 5000 2000 ⟨1, 1⟩ default 8 (sampleTX 8)).isNone = true := by
    decide
  rw [hr] at hnone
  cases hnone

/-! ## Calls made on one transaction -/

theorem callsOn_nil {V : Type} (o : TXOwner) : callsOn o ([] : List (Event V)) = [] := rfl

theorem callsOn_append {V : Type} (o : TXOwner) (xs ys : List (Event V)) :
    callsOn o (xs ++ ys) = callsOn o xs ++ callsOn o ys := by
  simp [callsOn, List.filter_append]

theorem callsOn_cons {V : Type} (o o2 : TXOwner) (c : Call V) (xs : List (Event V)) :
    callsOn o ((o2, c) :: xs) = (if o2 = o then [c] else []) ++ callsOn o xs := by
  by_cases h : o2 = o <;> simp [callsOn, List.filter_cons, h]

theorem callsOn_map_same {V α : Type} (o : TXOwner) (f : α → Call V) (xs : List α) :
    callsOn o (xs.map (fun x => ((o, f x) : Event V))) = xs.map f := by
  induction xs with
  | nil => rfl
  | cons x xs ih =>
    rw [List.map_cons, callsOn_cons, ih]; simp

theorem callsOn_map_other {V α : Type} (o o2 : TXOwner) (hne : o2 ≠ o) (f : α → Call V)
    (xs : List α) : callsOn o (xs.map (fun x => ((o2, f x) : Event V))) = [] := by
  induction xs with
  | nil => rfl
  | cons x xs ih =>
    rw [List.map_cons, callsOn_cons, ih]; simp [hne]

theorem replyCount_append {V : Type} (o : TXOwner) (xs ys : List (Event V)) :
    replyCount o (xs ++ ys) = replyCount o xs + replyCount o ys := by
  simp [replyCount, callsOn_append, List.filter_append]

/-! ## The transaction members -/

theorem OnFound_Validate {K V : Type} (t : TX K V) (p : Key_t) (v : V) :
    (t.OnFound p v).Validate = t.Validate := by
  unfold TX.OnFound
  by_cases h : t.Validate v <;> simp [h]

theorem OnFound_valuesFound {K V : Type} (t : TX K V) (p : Key_t) (v : V) :
    (t.OnFound p v).valuesFound = t.valuesFound ++ (if t.Validate v then [v] else []) := by
  unfold TX.OnFound
  by_cases h : t.Validate v <;> simp [h]

theorem foldl_OnFound_Validate {K V : Type} (p : Key_t) (values : List V) :
    ∀ t : TX K V, (values.foldl (fun acc v => acc.OnFound p v) t).Validate = t.Validate := by
  induction values with
  | nil => intro t; rfl
  | cons v vs ih => intro t; rw [List.foldl_cons, ih, OnFound_Validate]

theorem foldl_OnFound_valuesFound {K V : Type} (p : Key_t) (values : List V) :
    ∀ t : TX K V, (values.foldl (fun acc v => acc.OnFound p v) t).valuesFound =
      t.valuesFound ++ values.filter t.Validate := by
  induction values with
  | nil => intro t; simp
  | cons v vs ih =>
    intro t
    rw [List.foldl_cons, ih, OnFound_Validate, OnFound_valuesFound]
    by_cases h : t.Validate v <;> simp [List.filter_cons, h]

/-! ## The loop of `Inform` -/

theorem informLoop_frame {K V : Type} (frm : TXOwner) (values : List V) (sr : Bool)
    (o : TXOwner) (ws : List TXOwner) :
    ∀ tx : TXOwner → Option (TX K V), o ∉ ws →
      (informLoop frm values sr ws tx).1 o = tx o ∧
      callsOn o (informLoop frm values sr ws tx).2 = [] := by
  induction ws with
  | nil => intro tx _; exact ⟨rfl, rfl⟩
  | cons w ws ih =>
    intro tx hno
    have hne : w ≠ o := fun h => hno (h ▸ List.mem_cons_self _ _)
    have hno2 : o ∉ ws := fun h => hno (List.mem_cons_of_mem _ h)
    unfold informLoop
    cases hq : tx w with
    | none => simpa using ih tx hno2
    | some t =>
      cases sr with
      | true =>
        obtain ⟨i1, i2⟩ := ih (Function.update tx w none) hno2
        simp only [if_true]
        refine ⟨?_, ?_⟩
        · rw [i1]; simp [Function.update, hne.symm]
        · rw [callsOn_append, callsOn_cons, i2, callsOn_map_other o w hne]; simp [hne]
      | false =>
        obtain ⟨i1, i2⟩ := ih (Function.update tx w
          (some (values.foldl (fun acc v => acc.OnFound frm.node v) t))) hno2
        simp only [Bool.false_eq_true, if_false]
        refine ⟨?_, ?_⟩
        · rw [i1]; simp [Function.update, hne.symm]
        · rw [callsOn_append, i2, callsOn_map_other o w hne]; simp

theorem informLoop_reply {K V : Type} (frm : TXOwner) (values : List V) (o : TXOwner)
    (ws : List TXOwner) :
    ∀ tx : TXOwner → Option (TX K V), o ∈ ws →
      (informLoop frm values true ws tx).1 o = none ∧
      callsOn o (informLoop frm values true ws tx).2 =
        match tx o with
        | none => []
        | some t => values.map (fun v => Call.OnFound frm.node v) ++
            [Call.SendReply (t.valuesFound ++ values.filter t.Validate)] := by
  induction ws with
  | nil => intro tx hm; simp at hm
  | cons w ws ih =>
    intro tx hm
    unfold informLoop
    by_cases hw : w = o
    · subst hw
      cases hq : tx w with
      | none =>
        by_cases hmem : w ∈ ws
        · simpa [hq] using ih tx hmem
        · simpa [hq] using informLoop_frame frm values true w ws tx hmem
      | some t =>
        simp only [if_true]
        have hu : Function.update tx w none w = none := by simp
        by_cases hmem : w ∈ ws
        · obtain ⟨i1, i2⟩ := ih (Function.update tx w none) hmem
          rw [hu] at i2
          refine ⟨i1, ?_⟩
          rw [callsOn_append, callsOn_cons, i2, callsOn_map_same w (fun v => Call.OnFound frm.node v),
            foldl_OnFound_valuesFound]
          simp
        · obtain ⟨i1, i2⟩ := informLoop_frame frm values true w ws
            (Function.update tx w none) hmem
          refine ⟨by rw [i1, hu], ?_⟩
          rw [callsOn_append, callsOn_cons, i2, callsOn_map_same w (fun v => Call.OnFound frm.node v),
            foldl_OnFound_valuesFound]
          simp
    · have hmem : o ∈ ws := by
        rcases List.mem_cons.mp hm with h | h
        · exact absurd h.symm hw
        · exact h
      cases hq : tx w with
      | none => simpa using ih tx hmem
      | some t =>
        simp only [if_true]
        obtain ⟨i1, i2⟩ := ih (Function.update tx w none) hmem
        have hu : Function.update tx w none o = tx o := by
          simp [Function.update, Ne.symm hw]
        rw [hu] at i2
        refine ⟨i1, ?_⟩
        rw [callsOn_append, callsOn_cons, i2, callsOn_map_other o w hw]
        simp [hw]

theorem informLoop_nil_false {K V : Type} (frm : TXOwner) (ws : List TXOwner) :
    ∀ tx : TXOwner → Option (TX K V),
      informLoop frm ([] : List V) false ws tx = (tx, []) := by
  induction ws with
  | nil => intro tx; rfl
  | cons w ws ih =>
    intro tx
    unfold informLoop
    cases hq : tx w with
    | none => simpa using ih tx
    | some t =>
      have hu : Function.update tx w (some t) = tx := by
        rw [← hq]; exact Function.update_eq_self w tx
      simp [hu, ih]

/-! ## Reply fan-out -/

theorem Inform_waitersOf {K V : Type} [DecidableEq K] (h : TXHolder K V) (frm : TXOwner)
    (k : K) (values : List V) (rt : Bool) :
    (h.Inform frm k values true rt).1.waitersOf k = [] := by
  simp [TXHolder.Inform, TXHolder.waitersOf, List.filter_filter]

theorem Inform_HasLookupFor {K V : Type} [DecidableEq K] (h : TXHolder K V) (frm : TXOwner)
    (k : K) (values : List V) (sr : Bool) :
    (h.Inform frm k values sr true).1.HasLookupFor k = false := by
  simp [TXHolder.Inform, TXHolder.HasLookupFor]

/-- C2: when every waiter of `k` has a transaction in `tx`, `Found(from, k, values)` makes
on each waiter exactly the calls `OnFound(from.node, v)` for the values in the order given,
followed by one `SendReply` at which `valuesFound` is the previous `valuesFound` followed
by the values its `Validate` accepts; two waiters with the same `Validate` and empty
`valuesFound` receive the same calls; afterwards no waiter of `k` is in `tx`, `k` has no
waiters and no `timeouts` entry. -/
theorem Found_fanout {K V : Type} [DecidableEq K] (h : TXHolder K V) (frm : TXOwner)
    (k : K) (values : List V) (hlive : ∀ o ∈ h.waitersOf k, (h.tx o).isSome = true) :
    (∀ o ∈ h.waitersOf k, ∃ t, h.tx o = some t ∧
      callsOn o (h.Found frm k values).2 =
        values.map (fun v => Call.OnFound frm.node v) ++
          [Call.SendReply (t.valuesFound ++ values.filter t.Validate)]) ∧
    (∀ o1 ∈ h.waitersOf k, ∀ o2 ∈ h.waitersOf k, ∀ t1 t2, h.tx o1 = some t1 →
      h.tx o2 = some t2 → t1.Validate = t2.Validate → t1.valuesFound = [] →
      t2.valuesFound = [] →
      callsOn o1 (h.Found frm k values).2 = callsOn o2 (h.Found frm k values).2) ∧
    (∀ o ∈ h.waitersOf k, (h.Found frm k values).1.tx o = none) ∧
    (h.Found frm k values).1.waitersOf k = [] ∧
    (h.Found frm k values).1.HasLookupFor k = false := by
  have key : ∀ o ∈ h.waitersOf k, ∀ t, h.tx o = some t →
      callsOn o (h.Found frm k values).2 =
        values.map (fun v => Call.OnFound frm.node v) ++
          [Call.SendReply (t.valuesFound ++ values.filter t.Validate)] := by
    intro o ho t ht
    have := (informLoop_reply frm values o (h.waitersOf k) h.tx ho).2
    rw [ht] at this
    exact this
  refine ⟨?_, ?_, ?_, ?_, ?_⟩
  · intro o ho
    obtain ⟨t, ht⟩ := Option.isSome_iff_exists.mp (hlive o ho)
    exact ⟨t, ht, key o ho t ht⟩
  · intro o1 ho1 o2 ho2 t1 t2 h1 h2 hv e1 e2
    rw [key o1 ho1 t1 h1, key o2 ho2 t2 h2, hv, e1, e2]
  · intro o ho
    exact (informLoop_reply frm values o (h.waitersOf k) h.tx ho).1
  · exact Inform_waitersOf h frm k values true
  · exact Inform_HasLookupFor h frm k values true

theorem Found_fanout_witness :
    (∀ o ∈ sampleHolder.waitersOf 7, (sampleHolder.tx o).isSome = true) ∧
    (∀ o ∈ sampleHolder.waitersOf 7, ∃ t, sampleHolder.tx o = some t ∧
      callsOn o (sampleHolder.Found ⟨9, 4⟩ 7 [2, 3, 4]).2 =
        [2, 3, 4].map (fun v => Call.OnFound (9 : Key_t) v) ++
          [Call.SendReply (t.valuesFound ++ [2, 3, 4].filter t.Validate)]) :=
  ⟨by decide, (Found_fanout sampleHolder ⟨9, 4⟩ 7 [2, 3, 4] (by decide)).1⟩

/-! ## Replies and removals -/

theorem replyCount_fanout {V : Type} (p : Key_t) (values l : List V) :
    ((values.map (fun v => Call.OnFound p v) ++ [Call.SendReply l]).filter
      Call.isSendReply).length = 1 := by
  induction values with
  | nil => simp [Call.isSendReply]
  | cons v vs ih => simp [List.filter_cons, Call.isSendReply]

theorem Inform_reply_count {K V : Type} [DecidableEq K] (h : TXHolder K V) (frm : TXOwner)
    (k : K) (values : List V) (rt : Bool) (o : TXOwner) :
    replyCount o (h.Inform frm k values true rt).2 + (h.Inform frm k values true rt).1.live o =
      h.live o := by
  by_cases ho : o ∈ h.waitersOf k
  · obtain ⟨i1, i2⟩ := informLoop_reply frm values o (h.waitersOf k) h.tx ho
    unfold replyCount TXHolder.live
    simp only [TXHolder.Inform]
    rw [i1, i2]
    cases hq : h.tx o with
    | none => simp
    | some t => simp only [replyCount_fanout]; simp
  · obtain ⟨i1, i2⟩ := informLoop_frame frm values true o (h.waitersOf k) h.tx ho
    unfold replyCount TXHolder.live
    simp only [TXHolder.Inform]
    rw [i1, i2]
    simp

theorem Inform_nil_false {K V : Type} [DecidableEq K] (h : TXHolder K V) (frm : TXOwner)
    (k : K) : h.Inform frm k ([] : List V) false false = (h, []) := by
  simp [TXHolder.Inform, informLoop_nil_false]

theorem AskNextPeer_calls_noReply {K V : Type} [HasData K] (t : TX K V) (p : Key_t)
    (next : Option Key_t) (frm o : TXOwner) :
    replyCount o ((t.AskNextPeer p next).2.2.map (fun c => ((frm, c) : Event V))) = 0 := by
  unfold TX.AskNextPeer
  simp only
  split
  · simp [replyCount, callsOn]
  · split
    · simp [replyCount, callsOn]
    · by_cases hf : frm = o <;> simp [replyCount, callsOn, List.filter_cons, hf, Call.isSendReply]

theorem NotFound_reply_count {K V : Type} [DecidableEq K] [HasData K] (h : TXHolder K V)
    (frm : TXOwner) (next : Option Key_t) (o : TXOwner) :
    replyCount o (h.NotFound frm next).2 + (h.NotFound frm next).1.live o = h.live o := by
  unfold TXHolder.NotFound
  cases hq : h.tx frm with
  | none => simp [replyCount, callsOn]
  | some t =>
    simp only
    have hlive : TXHolder.live (K := K) (V := V) ⟨h.waiting, h.timeouts,
        Function.update h.tx frm (some (t.AskNextPeer frm.node next).2.1)⟩ o = h.live o := by
      unfold TXHolder.live
      by_cases hf : o = frm
      · subst hf; simp [hq]
      · simp [Function.update, hf]
    have hhead : ∀ rest : List (Event V),
        replyCount o ((frm, Call.AskNextPeer frm.node next) ::
          (t.AskNextPeer frm.node next).2.2.map (fun c => ((frm, c) : Event V)) ++ rest) =
        replyCount o rest := by
      intro rest
      rw [← List.singleton_append, List.append_assoc, replyCount_append, replyCount_append,
        AskNextPeer_calls_noReply]
      by_cases hf : frm = o <;> simp [replyCount, callsOn, List.filter_cons, hf, Call.isSendReply]
    rw [hhead]
    cases ha : (t.AskNextPeer frm.node next).1 with
    | true =>
      simp only [Bool.not_true]
      rw [Inform_nil_false]
      simpa [replyCount, callsOn] using hlive
    | false =>
      simp only [Bool.not_false]
      rw [Inform_reply_count, hlive]

theorem expireLoop_reply_count {K V : Type} [DecidableEq K] (T : Nat) (now : llarp_time_t)
    (o : TXOwner) (es : List (K × llarp_time_t)) :
    ∀ h : TXHolder K V,
      replyCount o (expireLoop T now es h).2 + (expireLoop T now es h).1.live o = h.live o := by
  induction es with
  | nil => intro h; simp [expireLoop, replyCount, callsOn, TXHolder.live]
  | cons e es ih =>
    intro h
    obtain ⟨k, d⟩ := e
    unfold expireLoop
    by_cases hx : expired T now d = true
    · simp only [hx, if_true]
      rw [replyCount_append, Nat.add_assoc, ih, Inform_reply_count]
    · simp only [hx]
      have := ih h
      simpa [TXHolder.live] using this

theorem NewTX_reply_count {K V : Type} [DecidableEq K] (h : TXHolder K V)
    (askpeer o : TXOwner) (k : K) :
    replyCount o
      ((if h.waitersOf k = [] then [(askpeer, Call.Start askpeer)] else []) :
        List (Event V)) = 0 := by
  by_cases hw : h.waitersOf k = [] <;> by_cases ho : askpeer = o <;>
    simp [hw, ho, replyCount, callsOn, List.filter_cons, Call.isSendReply]

theorem step_reply_count {K V : Type} [DecidableEq K] [HasData K] (T : Nat)
    (h : TXHolder K V) (op : Op K V) (hadm : admissible h op = true) :
    ∃ r, step T h op = some r ∧
      ∀ o : TXOwner, replyCount o r.2 + r.1.live o = h.live o + regCount o [op] := by
  cases op with
  | NewTX now askpeer whoasked k t =>
    simp only [admissible, Option.isNone_iff_eq_none] at hadm
    have hs : step T h (Op.NewTX now askpeer whoasked k t) =
        some (h.NewTX_containers T now askpeer whoasked k t,
          if h.waitersOf k = [] then [(askpeer, Call.Start askpeer)] else []) := by
      simp only [step]
      rw [NewTX_eq]
      by_cases hw : h.waitersOf k = [] <;> simp [hw, hadm]
    refine ⟨_, hs, ?_⟩
    intro o
    simp only [regCount]
    rw [NewTX_reply_count]
    unfold TXHolder.live
    rw [NewTX_tx]
    by_cases ho : o = askpeer
    · subst ho; simp [hadm]
    · simp [ho, Ne.symm ho]
  | Found frm k values =>
    refine ⟨_, rfl, ?_⟩
    intro o
    simpa [regCount, TXHolder.Found] using Inform_reply_count h frm k values true o
  | NotFound frm next =>
    refine ⟨_, rfl, ?_⟩
    intro o
    simpa [regCount] using NotFound_reply_count h frm next o
  | Expire now =>
    refine ⟨_, rfl, ?_⟩
    intro o
    simpa [regCount, TXHolder.Expire] using expireLoop_reply_count T now o h.timeouts h

theorem regCount_cons {K V : Type} (o : TXOwner) (op : Op K V) (ops : List (Op K V)) :
    regCount o (op :: ops) = regCount o [op] + regCount o ops := by
  cases op <;> simp [regCount]

theorem live_le_one {K V : Type} (h : TXHolder K V) (o : TXOwner) : h.live o ≤ 1 := by
  unfold TXHolder.live; split <;> simp

theorem reply_exact_of_count {K V : Type} (h h2 : TXHolder K V) (evs : List (Event V))
    (o : TXOwner) (hc : replyCount o evs + h2.live o = h.live o) :
    replyCount o evs =
      if (h.tx o).isSome = true ∧ (h2.tx o).isNone = true then 1 else 0 := by
  simp only [TXHolder.live] at hc
  cases h1 : h.tx o <;> cases h3 : h2.tx o <;> simp [h1, h3] at hc ⊢ <;> omega

theorem step_reply_exact {K V : Type} [DecidableEq K] [HasData K] (T : Nat)
    (h : TXHolder K V) (op : Op K V) (r : TXHolder K V × List (Event V))
    (hs : step T h op = some r) (o : TXOwner) :
    replyCount o r.2 =
      if (h.tx o).isSome = true ∧ (r.1.tx o).isNone = true then 1 else 0 := by
  cases op with
  | NewTX now askpeer whoasked k t =>
    simp only [step] at hs
    obtain ⟨h1, h2, _⟩ := NewTX_some T now h askpeer whoasked k t r hs
    have htx := NewTX_tx T now h askpeer whoasked k t o
    rw [h2, NewTX_reply_count, h1]
    simp only [htx]
    by_cases ho : o = askpeer
    · subst ho
      cases hq : h.tx o <;> simp
    · cases hq : h.tx o <;> simp [ho]
  | Found frm k values =>
    simp only [step, Option.some.injEq] at hs
    subst hs
    exact reply_exact_of_count h _ _ o (Inform_reply_count h frm k values true o)
  | NotFound frm next =>
    simp only [step, Option.some.injEq] at hs
    subst hs
    exact reply_exact_of_count h _ _ o (NotFound_reply_count h frm next o)
  | Expire now =>
    simp only [step, Option.some.injEq] at hs
    subst hs
    exact reply_exact_of_count h _ _ o (expireLoop_reply_count T now o h.timeouts h)

theorem run_reply_count {K V : Type} [DecidableEq K] [HasData K] (T : Nat)
    (ops : List (Op K V)) :
    ∀ h : TXHolder K V, admissibleRun T h ops = true →
      ∃ r, run T h ops = some r ∧
        ∀ o : TXOwner, replyCount o r.2 + r.1.live o = h.live o + regCount o ops := by
  induction ops with
  | nil =>
    intro h _
    exact ⟨(h, []), rfl, fun o => by simp [regCount, replyCount, callsOn]⟩
  | cons op ops ih =>
    intro h hadm
    simp only [admissibleRun, Bool.and_eq_true] at hadm
    obtain ⟨r1, hs, h1⟩ := step_reply_count T h op hadm.1
    have hadm2 := hadm.2
    rw [hs] at hadm2
    obtain ⟨r2, hr2, h2⟩ := ih r1.1 hadm2
    refine ⟨(r2.1, r1.2 ++ r2.2), (run_cons T h op ops _).mpr ⟨r1, r2, hs, hr2, rfl⟩, ?_⟩
    intro o
    have e1 := h1 o
    have e2 := h2 o
    rw [regCount_cons]
    simp only []
    rw [replyCount_append]
    omega

theorem run_prefix {K V : Type} [DecidableEq K] [HasData K] (T : Nat)
    (pre post : List (Op K V)) (op : Op K V) :
    ∀ (h : TXHolder K V) (r : TXHolder K V × List (Event V)),
      run T h (pre ++ op :: post) = some r →
      ∃ rp rs, run T h pre = some rp ∧ step T rp.1 op = some rs := by
  induction pre with
  | nil =>
    intro h r hr
    rw [List.nil_append, run_cons] at hr
    obtain ⟨r1, _, hs, _, _⟩ := hr
    exact ⟨(h, []), r1, rfl, hs⟩
  | cons p pre ih =>
    intro h r hr
    rw [List.cons_append, run_cons] at hr
    obtain ⟨r1, r2, hs, hr2, _⟩ := hr
    obtain ⟨rp, rs, hp, hstep⟩ := ih r1.1 r2 hr2
    exact ⟨(rp.1, r1.2 ++ rp.2), rs, (run_cons T h p pre _).mpr ⟨r1, rp, hs, hp, rfl⟩, hstep⟩

/-- C3: every sequence of `NewTX`, `Found`, `NotFound` and `Expire` from the empty holder
in which each `NewTX` uses an askpeer that is not in `tx` runs to its end; the number of
`SendReply` calls made on an owner plus one if it is still in `tx` equals the number of
times it was registered (so each registered transaction is replied to at most once, and
exactly once when it has left `tx`); and in every step of the sequence an owner receives
one `SendReply` if it is in `tx` before the step and not after it, and none otherwise. -/
theorem at_most_one_reply {K V : Type} [DecidableEq K] [HasData K] (T : Nat)
    (ops : List (Op K V)) (hadm : admissibleRun T (TXHolder.empty : TXHolder K V) ops = true) :
    ∃ r, run T (TXHolder.empty : TXHolder K V) ops = some r ∧
      (∀ o : TXOwner, replyCount o r.2 + r.1.live o = regCount o ops) ∧
      (∀ (pre post : List (Op K V)) (op : Op K V), ops = pre ++ op :: post →
        ∃ rp rs, run T (TXHolder.empty : TXHolder K V) pre = some rp ∧
          step T rp.1 op = some rs ∧
          ∀ o : TXOwner, replyCount o rs.2 =
            if (rp.1.tx o).isSome = true ∧ (rs.1.tx o).isNone = true then 1 else 0) := by
  obtain ⟨r, hr, hcount⟩ := run_reply_count T ops TXHolder.empty hadm
  refine ⟨r, hr, ?_, ?_⟩
  · intro o
    have := hcount o
    simpa [TXHolder.live, TXHolder.empty] using this
  · intro pre post op hops
    rw [hops] at hr
    obtain ⟨rp, rs, hp, hs⟩ := run_prefix T pre post op TXHolder.empty r hr
    exact ⟨rp, rs, hp, hs, fun o => step_reply_exact T rp.1 op rs hs o⟩

theorem at_most_one_reply_witness :
    admissibleRun 5000 (TXHolder.empty : TXHolder Key_t Nat) sampleOps = true ∧
    ∃ r, run 5000 (TXHolder.empty : TXHolder Key_t Nat) sampleOps = some r ∧
      replyCount ⟨1, 1⟩ r.2 + r.1.live ⟨1, 1⟩ = 2 :=
  ⟨by decide,
    (at_most_one_reply 5000 sampleOps (by decide)).imp
      (fun _ hr => ⟨hr.1, hr.2.1 ⟨1, 1⟩⟩)⟩

/-! ## Expiry -/

theorem expired_iff (T : Nat) (now d : Nat) :
    expired T now d = true ↔ d < now ∧ (T : Int) ≤ (now : Int) - (d : Int) := by
  unfold expired
  simp only [Bool.and_eq_true, decide_eq_true_eq, gt_iff_lt, ge_iff_le]
  constructor
  · rintro ⟨h1, h2⟩; exact ⟨h1, by omega⟩
  · rintro ⟨h1, h2⟩; exact ⟨h1, by omega⟩

theorem expiredKeys_cons {K : Type} (T : Nat) (now : llarp_time_t) (k : K)
    (d : llarp_time_t) (es : List (K × llarp_time_t)) :
    expiredKeys T now ((k, d) :: es) =
      if expired T now d = true then k :: expiredKeys T now es else expiredKeys T now es := by
  by_cases hx : expired T now d = true <;> simp [expiredKeys, List.filter_cons, hx]

theorem expireLoop_timeouts {K V : Type} [DecidableEq K] (T : Nat) (now : llarp_time_t)
    (es : List (K × llarp_time_t)) :
    ∀ h : TXHolder K V,
      (expireLoop T now es h).1.timeouts = es.filter (fun e => !expired T now e.2) := by
  induction es with
  | nil => intro h; rfl
  | cons e es ih =>
    intro h
    obtain ⟨k, d⟩ := e
    unfold expireLoop
    by_cases hx : expired T now d = true
    · simp [hx, ih]
    · simp [hx, ih]

theorem expireLoop_waiting {K V : Type} [DecidableEq K] (T : Nat) (now : llarp_time_t)
    (es : List (K × llarp_time_t)) :
    ∀ h : TXHolder K V,
      (expireLoop T now es h).1.waiting =
        h.waiting.filter (fun w => decide (w.1 ∉ expiredKeys T now es)) := by
  induction es with
  | nil => intro h; simp [expireLoop, expiredKeys]
  | cons e es ih =>
    intro h
    obtain ⟨k, d⟩ := e
    unfold expireLoop
    rw [expiredKeys_cons]
    by_cases hx : expired T now d = true
    · simp only [hx, if_true]
      rw [ih]
      simp only [TXHolder.Inform, if_true, List.filter_filter]
      apply List.filter_congr
      intro w _
      by_cases hwk : w.1 = k <;> simp [hwk]
    · simp only [hx]
      rw [ih]
      simp

theorem expireLoop_owner {K V : Type} [DecidableEq K] (T : Nat) (now : llarp_time_t)
    (o : TXOwner) (es : List (K × llarp_time_t)) :
    ∀ h : TXHolder K V,
      (waitsOnAny h.waiting (expiredKeys T now es) o →
        (expireLoop T now es h).1.tx o = none ∧
        callsOn o (expireLoop T now es h).2 =
          match h.tx o with
          | none => []
          | some t => [Call.SendReply t.valuesFound]) ∧
      (¬ waitsOnAny h.waiting (expiredKeys T now es) o →
        (expireLoop T now es h).1.tx o = h.tx o ∧
        callsOn o (expireLoop T now es h).2 = []) := by
  induction es with
  | nil =>
    intro h
    refine ⟨?_, ?_⟩
    · rintro ⟨k, hk, _⟩; simp [expiredKeys] at hk
    · intro _; exact ⟨rfl, rfl⟩
  | cons e es ih =>
    intro h
    obtain ⟨k, d⟩ := e
    unfold expireLoop
    rw [expiredKeys_cons]
    by_cases hx : expired T now d = true
    · simp only [hx, if_true]
      obtain ⟨ihY, ihN⟩ := ih (h.Inform default k ([] : List V) true false).1
      have hw1 : (h.Inform default k ([] : List V) true false).1.waiting =
          h.waiting.filter (fun w => w.1 ≠ k) := by simp [TXHolder.Inform]
      by_cases hmem : o ∈ h.waitersOf k
      · obtain ⟨i1, i2⟩ := informLoop_reply default ([] : List V) o (h.waitersOf k) h.tx hmem
        have hres : (expireLoop T now es (h.Inform default k ([] : List V) true false).1).1.tx o
              = none ∧
            callsOn o (expireLoop T now es
              (h.Inform default k ([] : List V) true false).1).2 = [] := by
          by_cases hY : waitsOnAny (h.Inform default k ([] : List V) true false).1.waiting
              (expiredKeys T now es) o
          · obtain ⟨a, b⟩ := ihY hY
            refine ⟨a, ?_⟩
            rw [b]
            have : (h.Inform default k ([] : List V) true false).1.tx o = none := i1
            rw [this]
          · obtain ⟨a, b⟩ := ihN hY
            refine ⟨?_, b⟩
            rw [a]; exact i1
        have hyes : waitsOnAny h.waiting (k :: expiredKeys T now es) o :=
          ⟨k, List.mem_cons_self _ _, (mem_waitersOf h k o).mp hmem⟩
        refine ⟨fun _ => ⟨hres.1, ?_⟩, fun hn => absurd hyes hn⟩
        rw [callsOn_append, hres.2]
        have : callsOn o (h.Inform default k ([] : List V) true false).2 =
            match h.tx o with
            | none => []
            | some t => [Call.SendReply t.valuesFound] := by
          have e2 : (h.Inform default k ([] : List V) true false).2 =
              (informLoop default ([] : List V) true (h.waitersOf k) h.tx).2 := rfl
          rw [e2, i2]
          cases h.tx o <;> simp
        rw [this]; simp
      · obtain ⟨i1, i2⟩ := informLoop_frame default ([] : List V) true o (h.waitersOf k) h.tx
          hmem
        have hnot : (k, o) ∉ h.waiting := fun hin => hmem ((mem_waitersOf h k o).mpr hin)
        have hiff : waitsOnAny (h.Inform default k ([] : List V) true false).1.waiting
            (expiredKeys T now es) o ↔ waitsOnAny h.waiting (k :: expiredKeys T now es) o := by
          rw [hw1]
          unfold waitsOnAny
          constructor
          · rintro ⟨k2, hk2, hin⟩
            exact ⟨k2, List.mem_cons_of_mem _ hk2, (List.mem_filter.mp hin).1⟩
          · rintro ⟨k2, hk2, hin⟩
            rcases List.mem_cons.mp hk2 with heq | hk2r
            · subst heq; exact absurd hin hnot
            · refine ⟨k2, hk2r, List.mem_filter.mpr ⟨hin, ?_⟩⟩
              have : k2 ≠ k := fun heq => hnot (heq ▸ hin)
              simpa using this
        have e1 : (h.Inform default k ([] : List V) true false).1.tx o = h.tx o := i1
        have e2 : callsOn o (h.Inform default k ([] : List V) true false).2 = [] := i2
        refine ⟨?_, ?_⟩
        · intro hY
          obtain ⟨a, b⟩ := ihY (hiff.mpr hY)
          refine ⟨a, ?_⟩
          rw [callsOn_append, e2, b, e1]; simp
        · intro hN
          obtain ⟨a, b⟩ := ihN (fun hY => hN (hiff.mp hY))
          refine ⟨by rw [a, e1], ?_⟩
          rw [callsOn_append, e2, b]; simp
    · simp only [hx]
      obtain ⟨ihY, ihN⟩ := ih h
      exact ⟨fun hY => ihY hY, fun hN => ihN hN⟩

theorem mem_expiredKeys {K : Type} (T : Nat) (now : Nat) (es : List (K × llarp_time_t))
    (k : K) :
    k ∈ expiredKeys T now es ↔ ∃ d, (k, d) ∈ es ∧ expired T now d = true := by
  unfold expiredKeys
  simp only [List.mem_map, List.mem_filter]
  constructor
  · rintro ⟨⟨k2, d⟩, ⟨hm, hx⟩, hk⟩
    simp only at hk hx
    subst hk
    exact ⟨d, hm, hx⟩
  · rintro ⟨d, hm, hx⟩
    exact ⟨(k, d), ⟨hm, hx⟩, rfl⟩

/-- C5, as the code has it: `Expire(now)` succeeds on a stored deadline `d` exactly when
`d < now` and `now - d >= requestTimeoutMS` as integers; the entries of `timeouts` with
such a deadline are erased and the other entries are unchanged; the waiters of the keys of
erased entries are erased from `waiting` and the waiters of all other keys are unchanged;
every owner waiting on such a key that has a transaction receives exactly one call, a
`SendReply` at which `valuesFound` is what it was before, and is removed from `tx`; and
every owner that waits on no such key keeps its transaction and receives no call. -/
theorem Expire_semantics {K V : Type} [DecidableEq K] (T : Nat) (h : TXHolder K V)
    (now : Nat) :
    (∀ d : Nat, expired T now d = true ↔ d < now ∧ (T : Int) ≤ (now : Int) - (d : Int)) ∧
    (∀ k, k ∈ expiredKeys T now h.timeouts ↔
      ∃ d, (k, d) ∈ h.timeouts ∧ expired T now d = true) ∧
    (h.Expire T now).1.timeouts = h.timeouts.filter (fun e => !expired T now e.2) ∧
    (h.Expire T now).1.waiting =
      h.waiting.filter (fun w => decide (w.1 ∉ expiredKeys T now h.timeouts)) ∧
    (∀ k, k ∈ expiredKeys T now h.timeouts → (h.Expire T now).1.waitersOf k = []) ∧
    (∀ k, k ∉ expiredKeys T now h.timeouts →
      (h.Expire T now).1.waitersOf k = h.waitersOf k ∧
      ∀ d, (k, d) ∈ (h.Expire T now).1.timeouts ↔ (k, d) ∈ h.timeouts) ∧
    (∀ o t, waitsOnAny h.waiting (expiredKeys T now h.timeouts) o → h.tx o = some t →
      callsOn o (h.Expire T now).2 = [Call.SendReply t.valuesFound] ∧
      (h.Expire T now).1.tx o = none) ∧
    (∀ o, ¬ waitsOnAny h.waiting (expiredKeys T now h.timeouts) o →
      (h.Expire T now).1.tx o = h.tx o ∧ callsOn o (h.Expire T now).2 = []) := by
  have hT := expireLoop_timeouts T now h.timeouts h
  have hW := expireLoop_waiting T now h.timeouts h
  refine ⟨fun d => expired_iff T now d, fun k => mem_expiredKeys T now h.timeouts k, hT, hW,
    ?_, ?_, ?_, ?_⟩
  · intro k hk
    unfold TXHolder.waitersOf TXHolder.Expire
    rw [hW, List.filter_filter, List.map_eq_nil_iff, List.filter_eq_nil_iff]
    intro w _ hc
    simp only [Bool.and_eq_true, decide_eq_true_eq] at hc
    exact hc.2 (hc.1 ▸ hk)
  · intro k hk
    refine ⟨?_, ?_⟩
    · unfold TXHolder.waitersOf TXHolder.Expire
      rw [hW, List.filter_filter]
      congr 1
      apply List.filter_congr
      intro w _
      by_cases hwk : w.1 = k
      · simp [hwk, hk]
      · simp [hwk]
    · intro d
      unfold TXHolder.Expire
      rw [hT, List.mem_filter]
      constructor
      · exact fun hx => hx.1
      · intro hm
        refine ⟨hm, ?_⟩
        cases hx : expired T now d with
        | false => rfl
        | true => exact absurd ((mem_expiredKeys T now h.timeouts k).mpr ⟨d, hm, hx⟩) hk
  · intro o t hY ht
    obtain ⟨a, b⟩ := (expireLoop_owner T now o h.timeouts h).1 hY
    rw [ht] at b
    exact ⟨b, a⟩
  · intro o hN
    exact (expireLoop_owner T now o h.timeouts h).2 hN

theorem Expire_semantics_witness :
    waitsOnAny sampleHolder.waiting (expiredKeys 5000 11000 sampleHolder.timeouts) ⟨1, 1⟩ ∧
    sampleHolder.tx ⟨1, 1⟩ = some (sampleTX 7) ∧
    callsOn ⟨1, 1⟩ (sampleHolder.Expire 5000 11000).2 = [Call.SendReply []] ∧
    (sampleHolder.Expire 5000 11000).1.tx ⟨1, 1⟩ = none :=
  ⟨by decide, rfl,
    (Expire_semantics 5000 sampleHolder 11000).2.2.2.2.2.2.1 ⟨1, 1⟩ (sampleTX 7) (by decide) rfl⟩

/-- C5 fails as stated: in `sharedOwner` at clock reading 10000 the entry of key 7 has
expired and the entry of key 8 has not, yet the owner (1, 1) registered under key 8 loses
its transaction and receives a `SendReply`. -/
theorem Expire_frame_counterexample :
    ¬ (∀ (k : Key_t) (o : TXOwner), k ∉ expiredKeys 5000 10000 sharedOwner.timeouts →
        o ∈ sharedOwner.waitersOf k →
        (sharedOwner.Expire 5000 10000).1.live o = sharedOwner.live o ∧
        replyCount o (sharedOwner.Expire 5000 10000).2 = 0) := by
  intro H
  have h8 := H 8 ⟨1, 1⟩ (by decide) (by decide)
  revert h8
  decide

/-- C4: on `firstLookup`, whose only waiter was registered as the first waiter of key 7 at
clock reading 1000 with `requestTimeoutMS` = 5000, the stored deadline is 6000 and
`Expire(6000)` as well as `Expire(10999)` make no call and leave the transaction in `tx`;
only from clock reading 11000 on does `Expire` send the reply. -/
theorem Expire_at_deadline_no_reply :
    firstLookup.waitersOf 7 = [⟨1, 1⟩] ∧
    firstLookup.timeouts = [(7, 6000)] ∧
    (firstLookup.Expire 5000 6000).2 = [] ∧
    ((firstLookup.Expire 5000 6000).1.tx ⟨1, 1⟩).isSome = true ∧
    (firstLookup.Expire 5000 10999).2 = [] ∧
    ((firstLookup.Expire 5000 10999).1.tx ⟨1, 1⟩).isSome = true ∧
    (firstLookup.Expire 5000 11000).2 = [(⟨1, 1⟩, Call.SendReply [])] := by
  decide

/-! ## Chain advance -/

theorem AskNextPeer_none {K V : Type} [HasData K] (t : TX K V) (p : Key_t)
    (hn : t.GetNextPeer (t.peersAsked.insert p) = none) :
    t.AskNextPeer p none = (false, { t with peersAsked := t.peersAsked.insert p }, []) := by
  unfold TX.AskNextPeer
  simp [hn]

theorem AskNextPeer_peer {K V : Type} [HasData K] (t : TX K V) (p peer : Key_t)
    (next : Option Key_t)
    (hc : next = some peer ∨
      (next = none ∧ t.GetNextPeer (t.peersAsked.insert p) = some peer)) :
    t.AskNextPeer p next =
      if (p ^^^ HasData.data t.target) < (peer ^^^ HasData.data t.target) then
        (false, { t with peersAsked := t.peersAsked.insert p }, [])
      else
        (true, { t with peersAsked := (t.peersAsked.insert p).insert peer },
          [Call.DoNextRequest peer]) := by
  unfold TX.AskNextPeer
  rcases hc with hc | ⟨hc, hg⟩
  · subst hc; rfl
  · subst hc; simp [hg]

theorem AskNextPeer_candidate {K V : Type} [HasData K] (t : TX K V) (p : Key_t)
    (next : Option Key_t) :
    (next = none ∧ t.GetNextPeer (t.peersAsked.insert p) = none) ∨
    ∃ peer, next = some peer ∨
      (next = none ∧ t.GetNextPeer (t.peersAsked.insert p) = some peer) := by
  cases next with
  | some n => exact Or.inr ⟨n, Or.inl rfl⟩
  | none =>
    cases hg : t.GetNextPeer (t.peersAsked.insert p) with
    | none => exact Or.inl ⟨rfl, rfl⟩
    | some peer => exact Or.inr ⟨peer, Or.inr ⟨rfl, rfl⟩⟩

theorem AskNextPeer_fields {K V : Type} [HasData K] (t : TX K V) (p : Key_t)
    (next : Option Key_t) :
    (t.AskNextPeer p next).2.1.target = t.target ∧
    (t.AskNextPeer p next).2.1.valuesFound = t.valuesFound ∧
    (t.AskNextPeer p next).2.1.Validate = t.Validate ∧
    p ∈ (t.AskNextPeer p next).2.1.peersAsked ∧
    ((t.AskNextPeer p next).1 = false → (t.AskNextPeer p next).2.2 = []) := by
  rcases AskNextPeer_candidate t p next with ⟨hn, hg⟩ | ⟨peer, hc⟩
  · subst hn
    rw [AskNextPeer_none t p hg]
    simp
  · rw [AskNextPeer_peer t p peer next hc]
    split <;> simp [List.mem_insert_iff]

/-- C6: for the transaction with target 0, the previous peer 128 and the hint 128 (a peer
naming itself as the next hop), `AskNextPeer` returns true and issues `DoNextRequest(128)`
although the requested peer is not strictly closer to the target than the previous one:
both distances are 128. -/
theorem AskNextPeer_same_distance :
    ((sampleTX 0).AskNextPeer 128 (some 128)).1 = true ∧
    ((sampleTX 0).AskNextPeer 128 (some 128)).2.2 = [Call.DoNextRequest 128] ∧
    ¬ ((128 ^^^ HasData.data (sampleTX 0).target) < (128 ^^^ HasData.data (sampleTX 0).target)) := by
  decide

/-- C7: with `peer` the hint when one is given and otherwise the result of `GetNextPeer`
on `peersAsked` with `prevPeer` inserted, `AskNextPeer(prevPeer, next)` returns false
exactly when no hint was given and `GetNextPeer` found no peer, or
`(prevPeer ^ target) < (peer ^ target)`, and then issues no `DoNextRequest`; for every
other `peer` it inserts `peer` into `peersAsked`, issues exactly `DoNextRequest(peer)` and
returns true; `prevPeer` is in `peersAsked` afterwards in all cases. -/
theorem AskNextPeer_decision {K V : Type} [HasData K] (t : TX K V) (prevPeer : Key_t)
    (next : Option Key_t) :
    ((t.AskNextPeer prevPeer next).1 = false ↔
      ((next = none ∧ t.GetNextPeer (t.peersAsked.insert prevPeer) = none) ∨
       ∃ peer, (next = some peer ∨
          (next = none ∧ t.GetNextPeer (t.peersAsked.insert prevPeer) = some peer)) ∧
        (prevPeer ^^^ HasData.data t.target) < (peer ^^^ HasData.data t.target))) ∧
    ((t.AskNextPeer prevPeer next).1 = false →
      (t.AskNextPeer prevPeer next).2.2 = [] ∧
      (t.AskNextPeer prevPeer next).2.1 =
        { t with peersAsked := t.peersAsked.insert prevPeer }) ∧
    (∀ peer, (next = some peer ∨
          (next = none ∧ t.GetNextPeer (t.peersAsked.insert prevPeer) = some peer)) →
        ¬ ((prevPeer ^^^ HasData.data t.target) < (peer ^^^ HasData.data t.target)) →
      (t.AskNextPeer prevPeer next).1 = true ∧
      (t.AskNextPeer prevPeer next).2.2 = [Call.DoNextRequest peer] ∧
      (t.AskNextPeer prevPeer next).2.1 =
        { t with peersAsked := (t.peersAsked.insert prevPeer).insert peer } ∧
      peer ∈ (t.AskNextPeer prevPeer next).2.1.peersAsked) ∧
    prevPeer ∈ (t.AskNextPeer prevPeer next).2.1.peersAsked := by
  refine ⟨?_, ?_, ?_, (AskNextPeer_fields t prevPeer next).2.2.2.1⟩
  · rcases AskNextPeer_candidate t prevPeer next with ⟨hn, hg⟩ | ⟨peer, hc⟩
    · subst hn
      rw [AskNextPeer_none t prevPeer hg]
      simp [hg]
    · rw [AskNextPeer_peer t prevPeer peer next hc]
      have huniq : ∀ q, (next = some q ∨
          (next = none ∧ t.GetNextPeer (t.peersAsked.insert prevPeer) = some q)) → q = peer := by
        intro q hq
        rcases hc with hc | ⟨hc, hg⟩ <;> rcases hq with hq | ⟨hq, hg2⟩
        · rw [hc] at hq; exact (Option.some.inj hq).symm
        · rw [hc] at hq; cases hq
        · rw [hc] at hq; cases hq
        · rw [hg] at hg2; exact (Option.some.inj hg2).symm
      have hnot : ¬ (next = none ∧ t.GetNextPeer (t.peersAsked.insert prevPeer) = none) := by
        rintro ⟨h1, h2⟩
        rcases hc with hc | ⟨_, hg⟩
        · rw [hc] at h1; cases h1
        · rw [hg] at h2; cases h2
      by_cases hlt : (prevPeer ^^^ HasData.data t.target) < (peer ^^^ HasData.data t.target)
      · simp only [hlt, if_true, true_iff]
        exact Or.inr ⟨peer, hc, hlt⟩
      · simp only [hlt, if_false]
        constructor
        · intro hf; cases hf
        · rintro (hbad | ⟨q, hq, hqlt⟩)
          · exact absurd hbad hnot
          · rw [huniq q hq] at hqlt; exact absurd hqlt hlt
  · intro hf
    rcases AskNextPeer_candidate t prevPeer next with ⟨hn, hg⟩ | ⟨peer, hc⟩
    · subst hn
      rw [AskNextPeer_none t prevPeer hg]
      exact ⟨rfl, rfl⟩
    · rw [AskNextPeer_peer t prevPeer peer next hc] at hf ⊢
      by_cases hlt : (prevPeer ^^^ HasData.data t.target) < (peer ^^^ HasData.data t.target)
      · rw [if_pos hlt]
        exact ⟨rfl, rfl⟩
      · rw [if_neg hlt] at hf
        cases hf
  · intro peer hc hnlt
    rw [AskNextPeer_peer t prevPeer peer next hc]
    rw [if_neg hnlt]
    exact ⟨rfl, rfl, rfl, List.mem_insert_self _ _⟩

theorem AskNextPeer_decision_witness :
    ¬ ((128 ^^^ HasData.data (sampleTX 0).target) < (64 ^^^ HasData.data (sampleTX 0).target)) ∧
    ((sampleTX 0).AskNextPeer 128 (some 64)).1 = true ∧
    ((sampleTX 0).AskNextPeer 128 (some 64)).2.2 = [Call.DoNextRequest 64] :=
  ⟨by decide,
    ((AskNextPeer_decision (sampleTX 0) 128 (some 64)).2.2.1 64 (Or.inl rfl) (by decide)).1,
    ((AskNextPeer_decision (sampleTX 0) 128 (some 64)).2.2.1 64 (Or.inl rfl) (by decide)).2.1⟩

/-! ## Negative replies -/

theorem NotFound_of_false {K V : Type} [DecidableEq K] [HasData K] (h : TXHolder K V)
    (frm : TXOwner) (next : Option Key_t) (t : TX K V) (hfrm : h.tx frm = some t)
    (hask : (t.AskNextPeer frm.node next).1 = false) :
    h.NotFound frm next =
      ((TXHolder.Inform ⟨h.waiting, h.timeouts,
          Function.update h.tx frm (some (t.AskNextPeer frm.node next).2.1)⟩
          frm t.target ([] : List V) true true).1,
        (frm, Call.AskNextPeer frm.node next) ::
          (TXHolder.Inform ⟨h.waiting, h.timeouts,
            Function.update h.tx frm (some (t.AskNextPeer frm.node next).2.1)⟩
            frm t.target ([] : List V) true true).2) := by
  unfold TXHolder.NotFound
  rw [hfrm]
  simp only [hask, Bool.not_false, (AskNextPeer_fields t frm.node next).1,
    (AskNextPeer_fields t frm.node next).2.2.2.2 hask, List.map_nil, List.nil_append]
  rfl

theorem NotFound_of_true {K V : Type} [DecidableEq K] [HasData K] (h : TXHolder K V)
    (frm : TXOwner) (next : Option Key_t) (t : TX K V) (hfrm : h.tx frm = some t)
    (hask : (t.AskNextPeer frm.node next).1 = true) :
    h.NotFound frm next =
      (⟨h.waiting, h.timeouts,
          Function.update h.tx frm (some (t.AskNextPeer frm.node next).2.1)⟩,
        (frm, Call.AskNextPeer frm.node next) ::
          (t.AskNextPeer frm.node next).2.2.map (fun c => ((frm, c) : Event V))) := by
  unfold TXHolder.NotFound
  rw [hfrm]
  simp only [hask, Bool.not_true, Inform_nil_false, List.append_nil]

/-- C8: when `from` is in `tx`, every waiter of the target of its transaction has a
transaction in `tx` and `AskNextPeer(from.node, next)` returns false, `NotFound(from, next)`
makes on every waiter of the target exactly one `SendReply`, at which `valuesFound` is what
it was before the call (the transaction of `from` is in addition the one `AskNextPeer` was
called on), removes all of them from `tx` and erases the target from `waiting` and
`timeouts`; and `AskNextPeer` returns false whenever the hint is strictly farther from the
target than `from.node`. -/
theorem NotFound_terminating {K V : Type} [DecidableEq K] [HasData K] (h : TXHolder K V)
    (frm : TXOwner) (next : Option Key_t) (t : TX K V) (hfrm : h.tx frm = some t)
    (hlive : ∀ o ∈ h.waitersOf t.target, (h.tx o).isSome = true)
    (hask : (t.AskNextPeer frm.node next).1 = false) :
    (∀ o ∈ h.waitersOf t.target, ∃ t0, h.tx o = some t0 ∧
      callsOn o (h.NotFound frm next).2 =
        (if frm = o then [Call.AskNextPeer frm.node next] else []) ++
          [Call.SendReply t0.valuesFound]) ∧
    (∀ o ∈ h.waitersOf t.target, (h.NotFound frm next).1.tx o = none) ∧
    (h.NotFound frm next).1.waitersOf t.target = [] ∧
    (h.NotFound frm next).1.HasLookupFor t.target = false ∧
    (∀ hint : Key_t,
      (frm.node ^^^ HasData.data t.target) < (hint ^^^ HasData.data t.target) →
      (t.AskNextPeer frm.node (some hint)).1 = false) := by
  rw [NotFound_of_false h frm next t hfrm hask]
  refine ⟨?_, ?_, ?_, ?_, ?_⟩
  · intro o ho
    obtain ⟨t0, ht0⟩ := Option.isSome_iff_exists.mp (hlive o ho)
    refine ⟨t0, ht0, ?_⟩
    have hr := (informLoop_reply frm ([] : List V) o (h.waitersOf t.target)
      (Function.update h.tx frm (some (t.AskNextPeer frm.node next).2.1)) ho).2
    rw [callsOn_cons]
    have e2 : (TXHolder.Inform ⟨h.waiting, h.timeouts,
          Function.update h.tx frm (some (t.AskNextPeer frm.node next).2.1)⟩
          frm t.target ([] : List V) true true).2 =
        (informLoop frm ([] : List V) true (h.waitersOf t.target)
          (Function.update h.tx frm (some (t.AskNextPeer frm.node next).2.1))).2 := rfl
    rw [e2, hr]
    by_cases hof : o = frm
    · subst hof
      rw [hfrm] at ht0
      have : t0 = t := (Option.some.inj ht0).symm
      subst this
      simp [(AskNextPeer_fields t0 o.node next).2.1]
    · simp [Function.update, hof, ht0]
  · intro o ho
    exact (informLoop_reply frm ([] : List V) o (h.waitersOf t.target)
      (Function.update h.tx frm (some (t.AskNextPeer frm.node next).2.1)) ho).1
  · exact Inform_waitersOf _ frm t.target [] true
  · exact Inform_HasLookupFor _ frm t.target [] true
  · intro hint hlt
    rw [AskNextPeer_peer t frm.node hint (some hint) (Or.inl rfl), if_pos hlt]

theorem NotFound_terminating_witness :
    chainHolder.tx ⟨128, 1⟩ = some (sampleTX 0) ∧
    ((sampleTX 0).AskNextPeer 128 (some 240)).1 = false ∧
    callsOn ⟨128, 1⟩ (chainHolder.NotFound ⟨128, 1⟩ (some 240)).2 =
      [Call.AskNextPeer 128 (some 240), Call.SendReply []] ∧
    (chainHolder.NotFound ⟨128, 1⟩ (some 240)).1.tx ⟨128, 1⟩ = none :=
  ⟨rfl, by decide,
    by
      obtain ⟨t0, h0, hc⟩ := (NotFound_terminating chainHolder ⟨128, 1⟩ (some 240) (sampleTX 0)
        rfl (by decide) (by decide)).1 ⟨128, 1⟩ (by decide)
      have : t0 = sampleTX 0 := (Option.some.inj h0).symm
      subst this
      simpa using hc,
    (NotFound_terminating chainHolder ⟨128, 1⟩ (some 240) (sampleTX 0)
      rfl (by decide) (by decide)).2.1 ⟨128, 1⟩ (by decide)⟩

/-- C9: when `from` is in `tx` and `AskNextPeer(from.node, next)` returns true,
`NotFound(from, next)` makes exactly two calls, the `AskNextPeer` and one
`DoNextRequest(peer)` on the transaction of `from` (no `SendReply`, no `OnFound`), leaves
`waiting` and `timeouts` unchanged, and changes `tx` only at `from`, whose transaction
gains `from.node` and `peer` in `peersAsked`; `peer` is the hint, or without a hint the
result of `GetNextPeer`. -/
theorem NotFound_continuing {K V : Type} [DecidableEq K] [HasData K] (h : TXHolder K V)
    (frm : TXOwner) (next : Option Key_t) (t : TX K V) (hfrm : h.tx frm = some t)
    (hask : (t.AskNextPeer frm.node next).1 = true) :
    ∃ peer : Key_t,
      (next = some peer ∨
        (next = none ∧ t.GetNextPeer (t.peersAsked.insert frm.node) = some peer)) ∧
      (h.NotFound frm next).2 =
        [(frm, Call.AskNextPeer frm.node next), (frm, Call.DoNextRequest peer)] ∧
      (h.NotFound frm next).1.waiting = h.waiting ∧
      (h.NotFound frm next).1.timeouts = h.timeouts ∧
      (h.NotFound frm next).1.tx = Function.update h.tx frm
        (some { t with peersAsked := (t.peersAsked.insert frm.node).insert peer }) ∧
      (∀ o, ((h.NotFound frm next).1.tx o).isSome = (h.tx o).isSome) ∧
      (∀ o, o ≠ frm → (h.NotFound frm next).1.tx o = h.tx o) := by
  rw [NotFound_of_true h frm next t hfrm hask]
  rcases AskNextPeer_candidate t frm.node next with ⟨hn, hg⟩ | ⟨peer, hc⟩
  · subst hn
    rw [AskNextPeer_none t frm.node hg] at hask
    cases hask
  · refine ⟨peer, hc, ?_⟩
    rw [AskNextPeer_peer t frm.node peer next hc] at hask ⊢
    by_cases hlt : (frm.node ^^^ HasData.data t.target) < (peer ^^^ HasData.data t.target)
    · rw [if_pos hlt] at hask
      cases hask
    · rw [if_neg hlt]
      refine ⟨rfl, rfl, rfl, rfl, ?_, ?_⟩
      · intro o
        by_cases hof : o = frm
        · subst hof; simp [hfrm]
        · simp [Function.update, hof]
      · intro o hof
        simp [Function.update, hof]

theorem NotFound_continuing_witness :
    chainHolder.tx ⟨128, 1⟩ = some (sampleTX 0) ∧
    ((sampleTX 0).AskNextPeer 128 (some 64)).1 = true ∧
    ∃ peer : Key_t,
      (chainHolder.NotFound ⟨128, 1⟩ (some 64)).2 =
        [(⟨128, 1⟩, Call.AskNextPeer 128 (some 64)), (⟨128, 1⟩, Call.DoNextRequest peer)] :=
  ⟨rfl, by decide,
    by
      obtain ⟨peer, _, hc, _⟩ := NotFound_continuing chainHolder ⟨128, 1⟩ (some 64) (sampleTX 0)
        rfl (by decide)
      exact ⟨peer, hc⟩⟩

/-! ## Replies from owners that are not in `tx` -/

/-- C10: in `sampleHolder` the owner (9, 4) is not a key of `tx`, yet `Found` from it for
key 7 calls `OnFound` and `SendReply` on both waiters of the key, removes them from `tx`
and erases the key from `waiting` and `timeouts`. -/
theorem Found_from_unknown_owner :
    (sampleHolder.tx ⟨9, 4⟩).isNone = true ∧
    (sampleHolder.Found ⟨9, 4⟩ 7 [2]).2 =
      [(⟨1, 1⟩, Call.OnFound 9 2), (⟨1, 1⟩, Call.SendReply [2]),
       (⟨2, 1⟩, Call.OnFound 9 2), (⟨2, 1⟩, Call.SendReply [2])] ∧
    sampleHolder.waiting = [(7, ⟨1, 1⟩), (7, ⟨2, 1⟩)] ∧
    (sampleHolder.Found ⟨9, 4⟩ 7 [2]).1.waiting = [] ∧
    sampleHolder.timeouts = [(7, 6000)] ∧
    (sampleHolder.Found ⟨9, 4⟩ 7 [2]).1.timeouts = [] ∧
    (sampleHolder.tx ⟨1, 1⟩).isSome = true ∧
    ((sampleHolder.Found ⟨9, 4⟩ 7 [2]).1.tx ⟨1, 1⟩).isNone = true ∧
    (sampleHolder.tx ⟨2, 1⟩).isSome = true ∧
    ((sampleHolder.Found ⟨9, 4⟩ 7 [2]).1.tx ⟨2, 1⟩).isNone = true := by
  decide

/-- C11: when `from` is not a key of `tx`, `NotFound(from, next)` returns the holder as it
was (`waiting`, `timeouts` and `tx` with every transaction in it) and makes no call on any
transaction: no `AskNextPeer`, `DoNextRequest`, `OnFound` or `SendReply`. -/
theorem NotFound_stale {K V : Type} [DecidableEq K] [HasData K] (h : TXHolder K V)
    (frm : TXOwner) (next : Option Key_t) (hstale : h.tx frm = none) :
    h.NotFound frm next = (h, []) := by
  unfold TXHolder.NotFound
  rw [hstale]

theorem NotFound_stale_witness :
    sampleHolder.tx ⟨9, 4⟩ = none ∧
    sampleHolder.NotFound ⟨9, 4⟩ (some 5) = (sampleHolder, []) :=
  ⟨rfl, NotFound_stale sampleHolder ⟨9, 4⟩ (some 5) rfl⟩

/-! ## Values delivered without a reply -/

theorem OnFound_peersAsked {K V : Type} (t : TX K V) (p : Key_t) (v : V) :
    (t.OnFound p v).peersAsked = t.peersAsked.insert p := by
  unfold TX.OnFound
  by_cases h : t.Validate v <;> simp [h]

theorem informLoop_false {K V : Type} (frm : TXOwner) (values : List V)
    (ws : List TXOwner) :
    ∀ tx : TXOwner → Option (TX K V),
      (∀ e ∈ (informLoop frm values false ws tx).2, ∃ v, e.2 = Call.OnFound frm.node v) ∧
      (∀ o, ((informLoop frm values false ws tx).1 o).isSome = (tx o).isSome) := by
  induction ws with
  | nil => intro tx; simp [informLoop]
  | cons w ws ih =>
    intro tx
    unfold informLoop
    cases hq : tx w with
    | none => simpa using ih tx
    | some t =>
      simp only [Bool.false_eq_true, if_false]
      obtain ⟨i1, i2⟩ := ih (Function.update tx w
        (some (values.foldl (fun acc v => acc.OnFound frm.node v) t)))
      refine ⟨?_, ?_⟩
      · intro e he
        rcases List.mem_append.mp he with he | he
        · obtain ⟨v, _, hv⟩ := List.mem_map.mp he
          exact ⟨v, by rw [← hv]⟩
        · exact i1 e he
      · intro o
        rw [i2 o]
        by_cases hof : o = w
        · subst hof; simp [hq]
        · simp [Function.update, hof]

/-- C17: `OnFound(askedPeer, v)` appends `v` at the end of `valuesFound` when
`Validate(v)` holds and leaves `valuesFound` unchanged otherwise; in both cases `askedPeer`
is in `peersAsked` afterwards, every element of `peersAsked` stays, and target, asker and
the virtual members are unchanged; and delivering values through `Inform` without
`sendreply` makes only `OnFound` calls and keeps every transaction in `tx`. -/
theorem OnFound_validation {K V : Type} [DecidableEq K] (t : TX K V) (askedPeer : Key_t)
    (v : V) :
    (t.Validate v = true → (t.OnFound askedPeer v).valuesFound = t.valuesFound ++ [v]) ∧
    (t.Validate v = false → (t.OnFound askedPeer v).valuesFound = t.valuesFound) ∧
    askedPeer ∈ (t.OnFound askedPeer v).peersAsked ∧
    (∀ p ∈ t.peersAsked, p ∈ (t.OnFound askedPeer v).peersAsked) ∧
    (∀ p ∈ (t.OnFound askedPeer v).peersAsked, p = askedPeer ∨ p ∈ t.peersAsked) ∧
    (t.OnFound askedPeer v).target = t.target ∧
    (t.OnFound askedPeer v).whoasked = t.whoasked ∧
    (t.OnFound askedPeer v).Validate = t.Validate ∧
    (∀ (h : TXHolder K V) (frm : TXOwner) (key : K) (values : List V) (rt : Bool),
      (∀ e ∈ (h.Inform frm key values false rt).2, e.2.isSendReply = false) ∧
      (∀ o, ((h.Inform frm key values false rt).1.tx o).isSome = (h.tx o).isSome)) := by
  refine ⟨?_, ?_, ?_, ?_, ?_, ?_, ?_, OnFound_Validate t askedPeer v, ?_⟩
  · intro hv; rw [OnFound_valuesFound]; simp [hv]
  · intro hv; rw [OnFound_valuesFound]; simp [hv]
  · rw [OnFound_peersAsked]; exact List.mem_insert_self _ _
  · intro p hp; rw [OnFound_peersAsked]; exact List.mem_insert_of_mem hp
  · intro p hp
    rw [OnFound_peersAsked] at hp
    exact List.mem_insert_iff.mp hp
  · unfold TX.OnFound; by_cases h : t.Validate v <;> simp [h]
  · unfold TX.OnFound; by_cases h : t.Validate v <;> simp [h]
  · intro h frm key values rt
    obtain ⟨i1, i2⟩ := informLoop_false frm values (h.waitersOf key) h.tx
    refine ⟨?_, i2⟩
    intro e he
    obtain ⟨v2, hv2⟩ := i1 e he
    rw [hv2]; rfl

theorem OnFound_validation_witness :
    busyTX.Validate 5 = false ∧ (busyTX.OnFound 9 5).valuesFound = [10] ∧
    busyTX.Validate 4 = true ∧ (busyTX.OnFound 9 4).valuesFound = [10, 4] :=
  ⟨by decide, (OnFound_validation busyTX 9 5).2.1 (by decide),
    by decide, (OnFound_validation busyTX 9 4).1 (by decide)⟩

/-- C19: `Inform(from, key, values, sendreply, removeTimeouts)` leaves the waiters and the
`timeouts` entries of every other key unchanged, and every owner that is not registered as
a waiter of `key` keeps its transaction unchanged and receives no call. -/
theorem Inform_frame {K V : Type} [DecidableEq K] (h : TXHolder K V) (frm : TXOwner)
    (key : K) (values : List V) (sendreply removeTimeouts : Bool) :
    (∀ k, k ≠ key →
      (h.Inform frm key values sendreply removeTimeouts).1.waitersOf k = h.waitersOf k ∧
      ∀ d, (k, d) ∈ (h.Inform frm key values sendreply removeTimeouts).1.timeouts ↔
        (k, d) ∈ h.timeouts) ∧
    (∀ o, (key, o) ∉ h.waiting →
      (h.Inform frm key values sendreply removeTimeouts).1.tx o = h.tx o ∧
      callsOn o (h.Inform frm key values sendreply removeTimeouts).2 = []) := by
  refine ⟨?_, ?_⟩
  · intro k hk
    refine ⟨?_, ?_⟩
    · unfold TXHolder.Inform TXHolder.waitersOf
      cases sendreply with
      | false => simp
      | true =>
        simp only [if_true, List.filter_filter]
        congr 1
        apply List.filter_congr
        intro w _
        by_cases hwk : w.1 = k
        · simp [hwk, hk]
        · simp [hwk]
    · intro d
      unfold TXHolder.Inform
      cases removeTimeouts with
      | false => simp
      | true => simp [List.mem_filter, hk]
  · intro o ho
    have hno : o ∉ h.waitersOf key := fun hin => ho ((mem_waitersOf h key o).mp hin)
    exact informLoop_frame frm values sendreply o (h.waitersOf key) h.tx hno

theorem Inform_frame_witness :
    (7, (⟨2, 1⟩ : TXOwner)) ∉ sharedOwner.waiting ∧
    (sharedOwner.Inform ⟨9, 4⟩ 7 [2] true true).1.tx ⟨2, 1⟩ = sharedOwner.tx ⟨2, 1⟩ ∧
    callsOn ⟨2, 1⟩ (sharedOwner.Inform ⟨9, 4⟩ 7 [2] true true).2 = [] :=
  ⟨by decide, (Inform_frame sharedOwner ⟨9, 4⟩ 7 [2] true true).2 ⟨2, 1⟩ (by decide)⟩

/-! ## Registration -/

theorem NewTX_timeouts {K V : Type} [DecidableEq K] (T : Nat) (now : llarp_time_t)
    (h : TXHolder K V) (askpeer whoasked : TXOwner) (k : K) (t : TX K V) :
    (h.NewTX_containers T now askpeer whoasked k t).timeouts =
      if h.HasLookupFor k = true then h.timeouts else h.timeouts ++ [(k, now + T)] := rfl

theorem HasLookupFor_iff {K V : Type} [DecidableEq K] (h : TXHolder K V) (k : K) :
    h.HasLookupFor k = true ↔ ∃ d, (k, d) ∈ h.timeouts := by
  unfold TXHolder.HasLookupFor
  simp only [List.any_eq_true, decide_eq_true_eq]
  constructor
  · rintro ⟨⟨k2, d⟩, hm, hk⟩
    simp only at hk
    subst hk
    exact ⟨d, hm⟩
  · rintro ⟨d, hm⟩
    exact ⟨(k, d), hm, rfl⟩

/-- C15: the `timeouts` update of `NewTX` for key `k` at clock reading `now` (lines
313-318, which every call executes) appends the entry `(k, now + requestTimeoutMS)` when
`k` had no entry, so that this is then the only deadline stored for `k`, and leaves
`timeouts` unchanged when `k` had one; the entries of every other key are unchanged in both
cases; and the holder `NewTX` returns is the one with these updates. -/
theorem NewTX_deadline {K V : Type} [DecidableEq K] (T : Nat) (now : llarp_time_t)
    (h : TXHolder K V) (askpeer whoasked : TXOwner) (k : K) (t : TX K V) :
    (h.HasLookupFor k = false →
      (h.NewTX_containers T now askpeer whoasked k t).timeouts =
        h.timeouts ++ [(k, now + T)] ∧
      ∀ d, (k, d) ∈ (h.NewTX_containers T now askpeer whoasked k t).timeouts ↔
        d = now + T) ∧
    (h.HasLookupFor k = true →
      (h.NewTX_containers T now askpeer whoasked k t).timeouts = h.timeouts) ∧
    (∀ k2 d, k2 ≠ k →
      ((k2, d) ∈ (h.NewTX_containers T now askpeer whoasked k t).timeouts ↔
        (k2, d) ∈ h.timeouts)) ∧
    (∀ r, h.NewTX T now askpeer whoasked k t = some r →
      r.1 = h.NewTX_containers T now askpeer whoasked k t) := by
  refine ⟨?_, ?_, ?_, ?_⟩
  · intro hl
    have hnone : ∀ d, (k, d) ∉ h.timeouts := by
      intro d hd
      have := (HasLookupFor_iff h k).mpr ⟨d, hd⟩
      rw [hl] at this
      cases this
    rw [NewTX_timeouts]
    simp only [hl, Bool.false_eq_true, if_false, true_and]
    intro d
    simp [hnone d]
  · intro hl; rw [NewTX_timeouts]; simp [hl]
  · intro k2 d hk
    rw [NewTX_timeouts]
    by_cases hl : h.HasLookupFor k = true
    · simp [hl]
    · simp [hl, hk]
  · intro r hr
    exact (NewTX_some T now h askpeer whoasked k t r hr).1

theorem NewTX_deadline_witness :
    (TXHolder.empty : TXHolder Key_t Nat).HasLookupFor 7 = false ∧
    ((TXHolder.empty : TXHolder Key_t Nat).NewTX_containers 5000 1000 ⟨1, 1⟩ default 7
      (sampleTX 7)).timeouts = [(7, 1000 + 5000)] ∧
    firstLookup.HasLookupFor 7 = true ∧
    (firstLookup.NewTX_containers 5000 3000 ⟨2, 1⟩ default 7 (sampleTX 7)).timeouts =
      firstLookup.timeouts ∧
    (TXHolder.empty : TXHolder Key_t Nat).NewTX 5000 1000 ⟨1, 1⟩ default 7 (sampleTX 7) =
      some ((TXHolder.empty : TXHolder Key_t Nat).NewTX_containers 5000 1000 ⟨1, 1⟩ default 7
        (sampleTX 7), [(⟨1, 1⟩, Call.Start ⟨1, 1⟩)]) :=
  ⟨rfl,
    ((NewTX_deadline 5000 1000 (TXHolder.empty : TXHolder Key_t Nat) ⟨1, 1⟩ default 7
      (sampleTX 7)).1 rfl).1,
    by decide,
    (NewTX_deadline 5000 3000 firstLookup ⟨2, 1⟩ default 7 (sampleTX 7)).2.1 (by decide),
    rfl⟩

/-! ## Owner comparison and hash -/

theorem xor_mod_two_pow_eq (a b n : Nat) :
    (a ^^^ b) % 2 ^ n = (a % 2 ^ n) ^^^ (b % 2 ^ n) := by
  apply Nat.eq_of_testBit_eq
  intro i
  simp only [Nat.testBit_mod_two_pow, Nat.testBit_xor]
  by_cases hi : i < n <;> simp [hi]

theorem keyByte_lt (k : Nat) (i : Nat) : keyByte k i < 256 := Nat.mod_lt _ (by decide)

theorem firstWord_eq (k : Nat) :
    firstWord k = keyByte k 0 + keyByte k 1 * 256 + keyByte k 2 * 65536 +
      keyByte k 3 * 16777216 + keyByte k 4 * 4294967296 + keyByte k 5 * 1099511627776 +
      keyByte k 6 * 281474976710656 + keyByte k 7 * 72057594037927936 := by
  simp [firstWord, List.range, List.range.loop]

theorem firstWord_lt (k : Nat) : firstWord k < 2 ^ 64 := by
  rw [firstWord_eq]
  have h0 := keyByte_lt k 0
  have h1 := keyByte_lt k 1
  have h2 := keyByte_lt k 2
  have h3 := keyByte_lt k 3
  have h4 := keyByte_lt k 4
  have h5 := keyByte_lt k 5
  have h6 := keyByte_lt k 6
  have h7 := keyByte_lt k 7
  norm_num
  omega

theorem firstWord_byte (k : Nat) (i : Nat) (hi : i < 8) :
    (firstWord k / 256 ^ i) % 256 = keyByte k i := by
  rw [firstWord_eq]
  have h0 := keyByte_lt k 0
  have h1 := keyByte_lt k 1
  have h2 := keyByte_lt k 2
  have h3 := keyByte_lt k 3
  have h4 := keyByte_lt k 4
  have h5 := keyByte_lt k 5
  have h6 := keyByte_lt k 6
  have h7 := keyByte_lt k 7
  interval_cases i <;> norm_num <;> omega

theorem keyByte_top (k : Nat) :
    keyByte k 7 = k / 2 ^ 192 % 256 ∧
    keyByte k 6 = k / 2 ^ 192 / 256 % 256 ∧
    keyByte k 5 = k / 2 ^ 192 / 256 / 256 % 256 ∧
    keyByte k 4 = k / 2 ^ 192 / 256 / 256 / 256 % 256 ∧
    keyByte k 3 = k / 2 ^ 192 / 256 / 256 / 256 / 256 % 256 ∧
    keyByte k 2 = k / 2 ^ 192 / 256 / 256 / 256 / 256 / 256 % 256 ∧
    keyByte k 1 = k / 2 ^ 192 / 256 / 256 / 256 / 256 / 256 / 256 % 256 ∧
    keyByte k 0 = k / 2 ^ 192 / 256 / 256 / 256 / 256 / 256 / 256 / 256 % 256 := by
  unfold keyByte
  simp only [Nat.div_div_eq_div_mul]
  norm_num

theorem keyByte_magnitude (k : Nat) (hk : k < 2 ^ 256) :
    k / 2 ^ 192 = keyByte k 0 * 256 ^ 7 + keyByte k 1 * 256 ^ 6 + keyByte k 2 * 256 ^ 5 +
      keyByte k 3 * 256 ^ 4 + keyByte k 4 * 256 ^ 3 + keyByte k 5 * 256 ^ 2 +
      keyByte k 6 * 256 + keyByte k 7 := by
  have hm : k / 2 ^ 192 < 2 ^ 64 := by
    rw [Nat.div_lt_iff_lt_mul (by positivity)]
    calc k < 2 ^ 256 := hk
      _ = 2 ^ 64 * 2 ^ 192 := by norm_num
  obtain ⟨e7, e6, e5, e4, e3, e2, e1, e0⟩ := keyByte_top k
  rw [e0, e1, e2, e3, e4, e5, e6, e7]
  clear e0 e1 e2 e3 e4 e5 e6 e7
  generalize k / 2 ^ 192 = m at hm ⊢
  norm_num at hm ⊢
  omega

/-- C18: `operator==` holds exactly when node and txid both agree, that is when the two
owners are the same pair.  The word the hash reads from the node is below 2^64, its byte
`i` (counted from the least significant) is byte `i` of the node for `i` < 8, and these 8
bytes are the top 64 bits of the node read as a big-endian number; for a txid that fits 64
bits the hash is the txid XOR that word shifted left by one, modulo 2^64, and is below
2^64; owners that compare equal have the same hash, and so have owners that agree on the
txid and on the first 8 bytes of the node. -/
theorem TXOwner_eq_hash (a b : TXOwner) :
    (a.eq b = true ↔ a.node = b.node ∧ a.txid = b.txid) ∧
    (a.eq b = true ↔ a = b) ∧
    firstWord a.node < 2 ^ 64 ∧
    (∀ i, i < 8 → (firstWord a.node / 256 ^ i) % 256 = keyByte a.node i) ∧
    (a.node < 2 ^ 256 →
      a.node / 2 ^ 192 =
        keyByte a.node 0 * 256 ^ 7 + keyByte a.node 1 * 256 ^ 6 + keyByte a.node 2 * 256 ^ 5 +
          keyByte a.node 3 * 256 ^ 4 + keyByte a.node 4 * 256 ^ 3 + keyByte a.node 5 * 256 ^ 2 +
          keyByte a.node 6 * 256 + keyByte a.node 7) ∧
    (a.txid < 2 ^ 64 →
      a.Hash = (a.txid ^^^ (firstWord a.node <<< 1)) % 2 ^ 64 ∧ a.Hash < 2 ^ 64) ∧
    (a.eq b = true → a.Hash = b.Hash) ∧
    (a.txid = b.txid → (∀ i, i < 8 → keyByte a.node i = keyByte b.node i) →
      a.Hash = b.Hash) := by
  have h1 : a.eq b = true ↔ a.node = b.node ∧ a.txid = b.txid := by
    unfold TXOwner.eq
    simp only [Bool.and_eq_true, decide_eq_true_eq]
    exact ⟨fun h => ⟨h.2, h.1⟩, fun h => ⟨h.2, h.1⟩⟩
  have h2 : a.eq b = true ↔ a = b := by
    rw [h1]
    constructor
    · intro h
      cases a; cases b
      simp only at h
      rw [h.1, h.2]
    · intro h; rw [h]; exact ⟨rfl, rfl⟩
  have hform : a.txid < 2 ^ 64 →
      a.Hash = (a.txid ^^^ (firstWord a.node <<< 1)) % 2 ^ 64 := by
    intro hlt
    unfold TXOwner.Hash
    rw [xor_mod_two_pow_eq, Nat.mod_eq_of_lt hlt]
  refine ⟨h1, h2, firstWord_lt a.node, fun i hi => firstWord_byte a.node i hi,
    keyByte_magnitude a.node, ?_, ?_, ?_⟩
  · intro hlt
    refine ⟨hform hlt, ?_⟩
    rw [hform hlt]
    exact Nat.mod_lt _ (by positivity)
  · intro h
    rw [h2.mp h]
  · intro htx hbytes
    have hw : firstWord a.node = firstWord b.node := by
      rw [firstWord_eq, firstWord_eq, hbytes 0 (by decide), hbytes 1 (by decide),
        hbytes 2 (by decide), hbytes 3 (by decide), hbytes 4 (by decide),
        hbytes 5 (by decide), hbytes 6 (by decide), hbytes 7 (by decide)]
    unfold TXOwner.Hash
    rw [htx, hw]

theorem TXOwner_eq_hash_witness :
    sampleOwner.txid < 2 ^ 64 ∧
    sampleOwner.node < 2 ^ 256 ∧
    sampleOwner.node / 2 ^ 192 = 0x0102030405060708 ∧
    firstWord sampleOwner.node = 0x0807060504030201 ∧
    sampleOwner.Hash = (5 ^^^ (0x0807060504030201 <<< 1)) % 2 ^ 64 ∧
    sampleOwner.Hash = 1156875391504614407 :=
  ⟨by decide, by decide, by decide, by decide,
    ((TXOwner_eq_hash sampleOwner sampleOwner).2.2.2.2.2.1 (by decide)).1, by decide⟩

/-- C20: `operator<` is irreflexive, but for the owners a = (node 1, txid 0) and
b = (node 0, txid 1) both `a < b` and `b < a` hold. -/
theorem TXOwner_lt_not_asymmetric :
    (∀ a : TXOwner, a.lt a = false) ∧
    (TXOwner.lt ⟨1, 0⟩ ⟨0, 1⟩ = true ∧ TXOwner.lt ⟨0, 1⟩ ⟨1, 0⟩ = true) := by
  refine ⟨?_, by decide⟩
  intro a
  simp [TXOwner.lt]

/-! ## Router lookup of the context -/

theorem foldl_closest_some (target : Key_t) (nodes : List Key_t) :
    ∀ b : Key_t, ∃ c,
      nodes.foldl
        (fun best k =>
          match best with
          | none => some k
          | some b => if (k ^^^ target) < (b ^^^ target) then some k else some b)
        (some b) = some c := by
  induction nodes with
  | nil => intro b; exact ⟨b, rfl⟩
  | cons n ns ih =>
    intro b
    simp only [List.foldl_cons]
    by_cases hlt : (n ^^^ target) < (b ^^^ target)
    · simpa [hlt] using ih n
    · simpa [hlt] using ih b

theorem FindClosest_eq_none (nodes : List Key_t) (target : Key_t) :
    FindClosest nodes target = none ↔ nodes = [] := by
  cases nodes with
  | nil => simp [FindClosest]
  | cons n ns =>
    obtain ⟨c, hc⟩ := foldl_closest_some target ns n
    simp only [FindClosest, List.foldl_cons]
    rw [hc]
    simp

/-- C16: `LookupRouter(target, handler)` returns false exactly when the router table is
empty, which is when `FindClosest` yields no peer, and then the context is unchanged and
no lookup is started; otherwise it returns true and the context is the result of one
`LookupRouterRecursive(target, whoasked = our key, whoaskedTX = 0, askpeer, handler)` with
`askpeer` the result of `FindClosest`. -/
theorem LookupRouter_result {K V H : Type} [HasData K]
    (LookupRouterRecursive : Context K V → K → Key_t → Nat → Key_t → H → Context K V)
    (ctx : Context K V) (target : K) (result : H) :
    ((ctx.LookupRouter LookupRouterRecursive target result).1 = false ↔ ctx.nodes = []) ∧
    ((ctx.LookupRouter LookupRouterRecursive target result).1 = false ↔
      FindClosest ctx.nodes (HasData.data target) = none) ∧
    (ctx.nodes = [] → ctx.LookupRouter LookupRouterRecursive target result = (false, ctx)) ∧
    (ctx.nodes ≠ [] → ∃ askpeer, FindClosest ctx.nodes (HasData.data target) = some askpeer ∧
      ctx.LookupRouter LookupRouterRecursive target result =
        (true, LookupRouterRecursive ctx target ctx.ourKey 0 askpeer result)) := by
  have hiff := FindClosest_eq_none ctx.nodes (HasData.data target)
  unfold Context.LookupRouter
  cases hf : FindClosest ctx.nodes (HasData.data target) with
  | none =>
    have hnil : ctx.nodes = [] := hiff.mp hf
    simp [hnil]
  | some askpeer =>
    have hne : ctx.nodes ≠ [] := fun hnil => by
      rw [hiff.mpr hnil] at hf; cases hf
    simp [hne]

theorem LookupRouter_result_witness :
    sampleContext.nodes ≠ [] ∧
    ∃ askpeer, FindClosest sampleContext.nodes (HasData.data (16 : Key_t)) = some askpeer ∧
      sampleContext.LookupRouter sampleRecursive 16 () =
        (true, sampleRecursive sampleContext 16 sampleContext.ourKey 0 askpeer ()) :=
  ⟨by decide, (LookupRouter_result sampleRecursive sampleContext 16 ()).2.2.2 (by decide)⟩

/-! ## Timeouts and waiters -/

theorem waitersOf_ne_nil_iff {K V : Type} [DecidableEq K] (h : TXHolder K V) (k : K) :
    h.waitersOf k ≠ [] ↔ ∃ o, (k, o) ∈ h.waiting := by
  constructor
  · intro hne
    obtain ⟨o, ho⟩ := List.exists_mem_of_ne_nil _ hne
    exact ⟨o, (mem_waitersOf h k o).mp ho⟩
  · rintro ⟨o, ho⟩ hnil
    have := (mem_waitersOf h k o).mpr ho
    rw [hnil] at this
    cases this

theorem TimeoutsMatch_empty {K V : Type} : TimeoutsMatch (TXHolder.empty : TXHolder K V) := by
  refine ⟨List.nodup_nil, ?_⟩
  intro k
  simp [TXHolder.empty]

theorem TimeoutsMatch_congr {K V : Type} (h h2 : TXHolder K V) (hm : TimeoutsMatch h)
    (hw : h2.waiting = h.waiting) (ht : h2.timeouts = h.timeouts) : TimeoutsMatch h2 := by
  unfold TimeoutsMatch at hm ⊢
  rw [hw, ht]
  exact hm

theorem TimeoutsMatch_erase {K V : Type} [DecidableEq K] (h h2 : TXHolder K V) (key : K)
    (hm : TimeoutsMatch h) (hw : h2.waiting = h.waiting.filter (fun w => w.1 ≠ key))
    (ht : h2.timeouts = h.timeouts.filter (fun e => e.1 ≠ key)) : TimeoutsMatch h2 := by
  obtain ⟨hnd, hiff⟩ := hm
  unfold TimeoutsMatch
  rw [hw, ht]
  refine ⟨List.Nodup.sublist ((List.filter_sublist _).map _) hnd, ?_⟩
  intro k
  simp only [List.mem_filter, decide_eq_true_eq]
  constructor
  · rintro ⟨d, hd, hk⟩
    obtain ⟨o, ho⟩ := (hiff k).mp ⟨d, hd⟩
    exact ⟨o, ho, hk⟩
  · rintro ⟨o, ho, hk⟩
    obtain ⟨d, hd⟩ := (hiff k).mpr ⟨o, ho⟩
    exact ⟨d, hd, hk⟩

theorem TimeoutsMatch_NewTX {K V : Type} [DecidableEq K] (T : Nat) (now : llarp_time_t)
    (h : TXHolder K V) (askpeer whoasked : TXOwner) (k : K) (t : TX K V)
    (hm : TimeoutsMatch h) : TimeoutsMatch (h.NewTX_containers T now askpeer whoasked k t) := by
  obtain ⟨hnd, hiff⟩ := hm
  unfold TimeoutsMatch
  rw [NewTX_waiting, NewTX_timeouts]
  by_cases hl : h.HasLookupFor k = true
  · simp only [hl, if_true]
    refine ⟨hnd, ?_⟩
    intro k2
    constructor
    · rintro ⟨d, hd⟩
      obtain ⟨o, ho⟩ := (hiff k2).mp ⟨d, hd⟩
      exact ⟨o, List.mem_append_left _ ho⟩
    · rintro ⟨o, ho⟩
      rcases List.mem_append.mp ho with ho | ho
      · exact (hiff k2).mpr ⟨o, ho⟩
      · simp only [List.mem_singleton, Prod.mk.injEq] at ho
        rw [ho.1]
        exact (HasLookupFor_iff h k).mp hl
  · simp only [hl, Bool.false_eq_true, if_false]
    have hnone : ∀ d, (k, d) ∉ h.timeouts := fun d hd =>
      hl ((HasLookupFor_iff h k).mpr ⟨d, hd⟩)
    refine ⟨?_, ?_⟩
    · rw [List.map_append, List.nodup_append]
      refine ⟨hnd, by simp, ?_⟩
      intro x hx1 hx2
      simp only [List.map_cons, List.map_nil, List.mem_singleton] at hx2
      obtain ⟨⟨k2, d⟩, hmem, hk⟩ := List.mem_map.mp hx1
      simp only at hk
      rw [hx2] at hk
      rw [hk] at hmem
      exact hnone d hmem
    · intro k2
      constructor
      · rintro ⟨d, hd⟩
        rcases List.mem_append.mp hd with hd | hd
        · obtain ⟨o, ho⟩ := (hiff k2).mp ⟨d, hd⟩
          exact ⟨o, List.mem_append_left _ ho⟩
        · simp only [List.mem_singleton, Prod.mk.injEq] at hd
          exact ⟨askpeer, List.mem_append_right _ (by simp [hd.1])⟩
      · rintro ⟨o, ho⟩
        rcases List.mem_append.mp ho with ho | ho
        · obtain ⟨d, hd⟩ := (hiff k2).mpr ⟨o, ho⟩
          exact ⟨d, List.mem_append_left _ hd⟩
        · simp only [List.mem_singleton, Prod.mk.injEq] at ho
          exact ⟨now + T, List.mem_append_right _ (by simp [ho.1])⟩

theorem TimeoutsMatch_Expire {K V : Type} [DecidableEq K] (T : Nat) (now : llarp_time_t)
    (h : TXHolder K V) (hm : TimeoutsMatch h) : TimeoutsMatch (h.Expire T now).1 := by
  obtain ⟨hnd, hiff⟩ := hm
  have hT := expireLoop_timeouts T now h.timeouts h
  have hW := expireLoop_waiting T now h.timeouts h
  unfold TimeoutsMatch TXHolder.Expire
  rw [hT, hW]
  refine ⟨List.Nodup.sublist ((List.filter_sublist _).map _) hnd, ?_⟩
  intro k
  simp only [List.mem_filter, decide_eq_true_eq, Bool.not_eq_true', mem_expiredKeys]
  constructor
  · rintro ⟨d, hd, hx⟩
    obtain ⟨o, ho⟩ := (hiff k).mp ⟨d, hd⟩
    refine ⟨o, ho, ?_⟩
    rintro ⟨d2, hd2, hx2⟩
    have heq := List.inj_on_of_nodup_map hnd hd hd2 rfl
    simp only [Prod.mk.injEq, true_and] at heq
    rw [← heq, hx] at hx2
    cases hx2
  · rintro ⟨o, ho, hnx⟩
    obtain ⟨d, hd⟩ := (hiff k).mpr ⟨o, ho⟩
    refine ⟨d, hd, ?_⟩
    cases hx : expired T now d with
    | false => rfl
    | true => exact absurd ⟨d, hd, hx⟩ hnx

theorem NotFound_containers {K V : Type} [DecidableEq K] [HasData K] (h : TXHolder K V)
    (frm : TXOwner) (next : Option Key_t) :
    ((h.NotFound frm next).1.waiting = h.waiting ∧
      (h.NotFound frm next).1.timeouts = h.timeouts) ∨
    ∃ key, (h.NotFound frm next).1.waiting = h.waiting.filter (fun w => w.1 ≠ key) ∧
      (h.NotFound frm next).1.timeouts = h.timeouts.filter (fun e => e.1 ≠ key) := by
  cases hq : h.tx frm with
  | none => rw [NotFound_stale h frm next hq]; exact Or.inl ⟨rfl, rfl⟩
  | some t =>
    cases ha : (t.AskNextPeer frm.node next).1 with
    | true => rw [NotFound_of_true h frm next t hq ha]; exact Or.inl ⟨rfl, rfl⟩
    | false => rw [NotFound_of_false h frm next t hq ha]; exact Or.inr ⟨t.target, rfl, rfl⟩

theorem TimeoutsMatch_step {K V : Type} [DecidableEq K] [HasData K] (T : Nat)
    (h : TXHolder K V) (op : Op K V) (r : TXHolder K V × List (Event V))
    (hs : step T h op = some r) (hm : TimeoutsMatch h) : TimeoutsMatch r.1 := by
  cases op with
  | NewTX now askpeer whoasked k t =>
    simp only [step] at hs
    rw [(NewTX_some T now h askpeer whoasked k t r hs).1]
    exact TimeoutsMatch_NewTX T now h askpeer whoasked k t hm
  | Found frm k values =>
    simp only [step, Option.some.injEq] at hs
    subst hs
    exact TimeoutsMatch_erase h _ k hm rfl rfl
  | NotFound frm next =>
    simp only [step, Option.some.injEq] at hs
    subst hs
    rcases NotFound_containers h frm next with ⟨hw, ht⟩ | ⟨key, hw, ht⟩
    · exact TimeoutsMatch_congr h _ hm hw ht
    · exact TimeoutsMatch_erase h _ key hm hw ht
  | Expire now =>
    simp only [step, Option.some.injEq] at hs
    subst hs
    exact TimeoutsMatch_Expire T now h hm

theorem TimeoutsMatch_run {K V : Type} [DecidableEq K] [HasData K] (T : Nat)
    (ops : List (Op K V)) :
    ∀ (h : TXHolder K V) (r : TXHolder K V × List (Event V)),
      run T h ops = some r → TimeoutsMatch h → TimeoutsMatch r.1 := by
  induction ops with
  | nil =>
    intro h r hr hm
    simp only [run, Option.some.injEq] at hr
    subst hr
    exact hm
  | cons op ops ih =>
    intro h r hr hm
    rw [run_cons] at hr
    obtain ⟨r1, r2, hs, hr2, he⟩ := hr
    subst he
    exact ih r1.1 r2 hr2 (TimeoutsMatch_step T h op r1 hs hm)

theorem TimeoutsMatch_HasLookupFor {K V : Type} [DecidableEq K] (h : TXHolder K V)
    (hm : TimeoutsMatch h) (k : K) : h.HasLookupFor k = true ↔ h.waitersOf k ≠ [] := by
  rw [HasLookupFor_iff, waitersOf_ne_nil_iff]
  exact hm.2 k

/-- C12: in every holder `r.1` reached from the empty holder by a sequence of `NewTX`,
`Found`, `NotFound` and `Expire`, a key has an entry in `timeouts` exactly when some waiter
is registered for it in `waiting`, no key has two entries, and `HasLookupFor(k)` is true
exactly when `k` has a waiter; the same holds of the containers after the updates of one
more `NewTX` (lines 309-318), whatever its arguments. -/
theorem timeouts_iff_waiters {K V : Type} [DecidableEq K] [HasData K] (T : Nat)
    (ops : List (Op K V)) (r : TXHolder K V × List (Event V))
    (hrun : run T (TXHolder.empty : TXHolder K V) ops = some r) (k : K) :
    ((∃ d, (k, d) ∈ r.1.timeouts) ↔ ∃ o, (k, o) ∈ r.1.waiting) ∧
    (r.1.HasLookupFor k = true ↔ r.1.waitersOf k ≠ []) ∧
    (r.1.timeouts.map (fun e => e.1)).Nodup ∧
    (∀ (now : llarp_time_t) (askpeer whoasked : TXOwner) (k2 : K) (t : TX K V),
      ((r.1.NewTX_containers T now askpeer whoasked k2 t).HasLookupFor k = true ↔
        (r.1.NewTX_containers T now askpeer whoasked k2 t).waitersOf k ≠ []) ∧
      ((r.1.NewTX_containers T now askpeer whoasked k2 t).timeouts.map
        (fun e => e.1)).Nodup) := by
  have hm := TimeoutsMatch_run T ops TXHolder.empty r hrun TimeoutsMatch_empty
  refine ⟨hm.2 k, TimeoutsMatch_HasLookupFor r.1 hm k, hm.1, ?_⟩
  intro now askpeer whoasked k2 t
  have hm2 := TimeoutsMatch_NewTX T now r.1 askpeer whoasked k2 t hm
  exact ⟨TimeoutsMatch_HasLookupFor _ hm2 k, hm2.1⟩

theorem timeouts_iff_waiters_witness :
    run 5000 (TXHolder.empty : TXHolder Key_t Nat) liveOps = some (outcomeAfter liveOps) ∧
    ((outcomeAfter liveOps).1.HasLookupFor 7 = true ↔
      (outcomeAfter liveOps).1.waitersOf 7 ≠ []) ∧
    (outcomeAfter liveOps).1.waitersOf 7 = [⟨1, 1⟩, ⟨2, 1⟩] :=
  ⟨rfl, (timeouts_iff_waiters 5000 liveOps (outcomeAfter liveOps) (by rfl) 7).2.1, by decide⟩

/-! ## Registration with an askpeer that is already in `tx` -/

/-- C14 fails as stated: in `sampleHolder` the owner (1, 1) is a key of `tx`, yet `NewTX`
with that askpeer for key 7 returns a holder in which it is registered as a third waiter
of the key. -/
theorem NewTX_duplicate_counterexample :
    (sampleHolder.tx ⟨1, 1⟩).isSome = true ∧
    sampleHolder.waiting = [(7, ⟨1, 1⟩), (7, ⟨2, 1⟩)] ∧
    (sampleHolder.NewTX 5000 2000 ⟨1, 1⟩ default 7 (sampleTX 7)).map (fun r => r.1.waiting) =
      some [(7, ⟨1, 1⟩), (7, ⟨2, 1⟩), (7, ⟨1, 1⟩)] ∧
    (sampleHolder.NewTX 5000 2000 ⟨1, 1⟩ default 7 (sampleTX 7)).map (fun r => r.1.waiting) ≠
      some sampleHolder.waiting := by
  decide

/-- C14, as the code has it: when the askpeer is already a key of `tx` and `k` already has
a waiter and a `timeouts` entry, `NewTX` keeps the existing transaction, leaves `tx` and
`timeouts` unchanged and makes no call, but registers the askpeer as one more waiter of
`k`; in a holder reached from the empty holder it is enough that `k` has a waiter. -/
theorem NewTX_duplicate {K V : Type} [DecidableEq K] [HasData K] (T : Nat)
    (now : llarp_time_t) (askpeer whoasked : TXOwner) (k : K) (t t0 : TX K V) :
    (∀ h : TXHolder K V, h.tx askpeer = some t0 → h.waitersOf k ≠ [] →
      h.HasLookupFor k = true →
      h.NewTX T now askpeer whoasked k t =
        some (⟨h.waiting ++ [(k, askpeer)], h.timeouts, h.tx⟩, [])) ∧
    (∀ (ops : List (Op K V)) (r : TXHolder K V × List (Event V)),
      run T (TXHolder.empty : TXHolder K V) ops = some r →
      r.1.tx askpeer = some t0 → r.1.waitersOf k ≠ [] →
      r.1.NewTX T now askpeer whoasked k t =
        some (⟨r.1.waiting ++ [(k, askpeer)], r.1.timeouts, r.1.tx⟩, [])) := by
  have hgen : ∀ h : TXHolder K V, h.tx askpeer = some t0 → h.waitersOf k ≠ [] →
      h.HasLookupFor k = true →
      h.NewTX T now askpeer whoasked k t =
        some (⟨h.waiting ++ [(k, askpeer)], h.timeouts, h.tx⟩, []) := by
    intro h hdup hw ht
    rw [NewTX_eq, if_neg hw]
    unfold TXHolder.NewTX_containers
    simp [hdup, ht]
  refine ⟨hgen, ?_⟩
  intro ops r hrun hdup hw
  have hm := TimeoutsMatch_run T ops TXHolder.empty r hrun TimeoutsMatch_empty
  exact hgen r.1 hdup hw ((TimeoutsMatch_HasLookupFor r.1 hm k).mpr hw)

theorem NewTX_duplicate_witness :
    sampleHolder.tx ⟨1, 1⟩ = some (sampleTX 7) ∧
    sampleHolder.waitersOf 7 ≠ [] ∧
    sampleHolder.HasLookupFor 7 = true ∧
    sampleHolder.NewTX 5000 2000 ⟨1, 1⟩ default 7 busyTX =
      some (⟨sampleHolder.waiting ++ [(7, ⟨1, 1⟩)], sampleHolder.timeouts, sampleHolder.tx⟩,
        []) :=
  ⟨rfl, by decide, by decide,
    (NewTX_duplicate 5000 2000 ⟨1, 1⟩ default (7 : Key_t) busyTX (sampleTX 7)).1 sampleHolder
      rfl (by decide) (by decide)⟩

/-! ## Consistency of the holder -/

theorem OwnersMatch_empty {K V : Type} : OwnersMatch (TXHolder.empty : TXHolder K V) := by
  refine ⟨?_, ?_⟩
  · intro k o hm; simp [TXHolder.empty] at hm
  · intro o t ht; simp [TXHolder.empty] at ht

theorem OwnersMatch_timeouts {K V : Type} (h : TXHolder K V) (ts : List (K × llarp_time_t))
    (hm : OwnersMatch h) : OwnersMatch { h with timeouts := ts } := hm

theorem OwnersMatch_NewTX {K V : Type} [DecidableEq K] (T : Nat) (now : llarp_time_t)
    (h : TXHolder K V) (askpeer whoasked : TXOwner) (t : TX K V)
    (hfresh : h.tx askpeer = none) (hm : OwnersMatch h) :
    OwnersMatch (h.NewTX_containers T now askpeer whoasked t.target t) := by
  obtain ⟨ha, hb⟩ := hm
  have htx := NewTX_tx T now h askpeer whoasked t.target t
  unfold OwnersMatch
  rw [NewTX_waiting]
  refine ⟨?_, ?_⟩
  · intro k o hko
    rw [htx]
    rcases List.mem_append.mp hko with hko | hko
    · obtain ⟨t0, ht0, htk⟩ := ha k o hko
      have hne : o ≠ askpeer := by
        intro heq; rw [heq, hfresh] at ht0; cases ht0
      exact ⟨t0, by simp [hne, ht0], htk⟩
    · simp only [List.mem_singleton, Prod.mk.injEq] at hko
      refine ⟨t, by simp [hko.2, hfresh], hko.1.symm⟩
  · intro o t0 ht0
    rw [htx] at ht0
    by_cases hne : o = askpeer
    · subst hne
      simp only [if_true, hfresh, Option.some.injEq] at ht0
      subst ht0
      exact List.mem_append_right _ (by simp)
    · simp only [hne, if_false] at ht0
      exact List.mem_append_left _ (hb o t0 ht0)

theorem OwnersMatch_Inform {K V : Type} [DecidableEq K] (h : TXHolder K V) (frm : TXOwner)
    (key : K) (values : List V) (rt : Bool) (hm : OwnersMatch h) :
    OwnersMatch (h.Inform frm key values true rt).1 := by
  obtain ⟨ha, hb⟩ := hm
  have hw : (h.Inform frm key values true rt).1.waiting =
      h.waiting.filter (fun w => w.1 ≠ key) := rfl
  have hgone : ∀ o, (key, o) ∈ h.waiting → (h.Inform frm key values true rt).1.tx o = none :=
    fun o ho => (informLoop_reply frm values o (h.waitersOf key) h.tx
      ((mem_waitersOf h key o).mpr ho)).1
  have hkept : ∀ o, (key, o) ∉ h.waiting →
      (h.Inform frm key values true rt).1.tx o = h.tx o :=
    fun o ho => ((Inform_frame h frm key values true rt).2 o ho).1
  unfold OwnersMatch
  rw [hw]
  refine ⟨?_, ?_⟩
  · intro k o hko
    obtain ⟨hko1, hk⟩ := List.mem_filter.mp hko
    simp only [ne_eq, decide_eq_true_eq] at hk
    obtain ⟨t0, ht0, htk⟩ := ha k o hko1
    have hnot : (key, o) ∉ h.waiting := by
      intro hin
      obtain ⟨t1, ht1, htk1⟩ := ha key o hin
      rw [ht0] at ht1
      cases ht1
      exact hk (htk.symm.trans htk1)
    exact ⟨t0, by rw [hkept o hnot, ht0], htk⟩
  · intro o t0 ht0
    have hnot : (key, o) ∉ h.waiting := by
      intro hin
      rw [hgone o hin] at ht0
      cases ht0
    rw [hkept o hnot] at ht0
    refine List.mem_filter.mpr ⟨hb o t0 ht0, ?_⟩
    simp only [ne_eq, decide_eq_true_eq]
    intro heq
    exact hnot (heq ▸ hb o t0 ht0)

theorem OwnersMatch_update {K V : Type} (h : TXHolder K V) (frm : TXOwner) (t t2 : TX K V)
    (hfrm : h.tx frm = some t) (htarget : t2.target = t.target) (hm : OwnersMatch h) :
    OwnersMatch (K := K) (V := V) ⟨h.waiting, h.timeouts, Function.update h.tx frm (some t2)⟩ := by
  obtain ⟨ha, hb⟩ := hm
  refine ⟨?_, ?_⟩
  · intro k o hko
    obtain ⟨t0, ht0, htk⟩ := ha k o hko
    by_cases hof : o = frm
    · subst hof
      rw [hfrm] at ht0
      cases ht0
      exact ⟨t2, by simp, htarget.trans htk⟩
    · exact ⟨t0, by simp [Function.update, hof, ht0], htk⟩
  · intro o t0 ht0
    by_cases hof : o = frm
    · subst hof
      simp only [Function.update_same, Option.some.injEq] at ht0
      subst ht0
      rw [htarget]
      exact hb o t hfrm
    · simp only [Function.update, hof, dif_neg, not_false_eq_true] at ht0
      exact hb o t0 ht0

theorem OwnersMatch_NotFound {K V : Type} [DecidableEq K] [HasData K] (h : TXHolder K V)
    (frm : TXOwner) (next : Option Key_t) (hm : OwnersMatch h) :
    OwnersMatch (h.NotFound frm next).1 := by
  cases hq : h.tx frm with
  | none => rw [NotFound_stale h frm next hq]; exact hm
  | some t =>
    have hup := OwnersMatch_update h frm t (t.AskNextPeer frm.node next).2.1 hq
      (AskNextPeer_fields t frm.node next).1 hm
    cases ha : (t.AskNextPeer frm.node next).1 with
    | true => rw [NotFound_of_true h frm next t hq ha]; exact hup
    | false =>
      rw [NotFound_of_false h frm next t hq ha]
      exact OwnersMatch_Inform _ frm t.target [] true hup

theorem OwnersMatch_expireLoop {K V : Type} [DecidableEq K] (T : Nat) (now : llarp_time_t)
    (es : List (K × llarp_time_t)) :
    ∀ h : TXHolder K V, OwnersMatch h → OwnersMatch (expireLoop T now es h).1 := by
  induction es with
  | nil => intro h hm; exact hm
  | cons e es ih =>
    intro h hm
    obtain ⟨k, d⟩ := e
    unfold expireLoop
    by_cases hx : expired T now d = true
    · simp only [hx, if_true]
      exact ih _ (OwnersMatch_Inform h default k [] false hm)
    · simp only [hx]
      exact ih h hm

theorem OwnersMatch_step {K V : Type} [DecidableEq K] [HasData K] (T : Nat)
    (h : TXHolder K V) (op : Op K V) (hfresh : registersFresh h op = true)
    (hm : OwnersMatch h) : ∃ r, step T h op = some r ∧ OwnersMatch r.1 := by
  cases op with
  | NewTX now askpeer whoasked k t =>
    simp only [registersFresh, Bool.and_eq_true, Option.isNone_iff_eq_none,
      decide_eq_true_eq] at hfresh
    obtain ⟨hnone, hk⟩ := hfresh
    subst hk
    have hs : step T h (Op.NewTX now askpeer whoasked t.target t) =
        some (h.NewTX_containers T now askpeer whoasked t.target t,
          if h.waitersOf t.target = [] then [(askpeer, Call.Start askpeer)] else []) := by
      simp only [step]
      rw [NewTX_eq]
      by_cases hw : h.waitersOf t.target = [] <;> simp [hw, hnone]
    exact ⟨_, hs, OwnersMatch_NewTX T now h askpeer whoasked t hnone hm⟩
  | Found frm k values => exact ⟨_, rfl, OwnersMatch_Inform h frm k values true hm⟩
  | NotFound frm next => exact ⟨_, rfl, OwnersMatch_NotFound h frm next hm⟩
  | Expire now => exact ⟨_, rfl, OwnersMatch_expireLoop T now h.timeouts h hm⟩

theorem OwnersMatch_run {K V : Type} [DecidableEq K] [HasData K] (T : Nat)
    (ops : List (Op K V)) :
    ∀ h : TXHolder K V, registersFreshRun T h ops = true → OwnersMatch h →
      ∃ r, run T h ops = some r ∧ OwnersMatch r.1 := by
  induction ops with
  | nil => intro h _ hm; exact ⟨(h, []), rfl, hm⟩
  | cons op ops ih =>
    intro h hfresh hm
    simp only [registersFreshRun, Bool.and_eq_true] at hfresh
    obtain ⟨r1, hs, hm1⟩ := OwnersMatch_step T h op hfresh.1 hm
    have hfresh2 := hfresh.2
    rw [hs] at hfresh2
    obtain ⟨r2, hr2, hm2⟩ := ih r1.1 hfresh2 hm1
    exact ⟨(r2.1, r1.2 ++ r2.2), (run_cons T h op ops _).mpr ⟨r1, r2, hs, hr2, rfl⟩, hm2⟩

/-- C13: every sequence of `NewTX` (each with an askpeer that is not in `tx` and with the
key equal to the target of the transaction), `Found`, `NotFound` and `Expire` from the
empty holder runs to its end, and in the holder it reaches every owner that appears in
`waiting` is a key of `tx` and its transaction has the key it waits on as target, and
every transaction in `tx` has its owner registered in `waiting` under its target, with
that target present in `timeouts`. -/
theorem holder_consistency {K V : Type} [DecidableEq K] [HasData K] (T : Nat)
    (ops : List (Op K V))
    (hfresh : registersFreshRun T (TXHolder.empty : TXHolder K V) ops = true) :
    ∃ r, run T (TXHolder.empty : TXHolder K V) ops = some r ∧
      (∀ k o, (k, o) ∈ r.1.waiting → ∃ t, r.1.tx o = some t ∧ t.target = k) ∧
      (∀ o t, r.1.tx o = some t →
        (t.target, o) ∈ r.1.waiting ∧ r.1.HasLookupFor t.target = true) := by
  obtain ⟨r, hr, ha, hb⟩ := OwnersMatch_run T ops TXHolder.empty hfresh OwnersMatch_empty
  obtain ⟨_, hiff⟩ := TimeoutsMatch_run T ops (TXHolder.empty : TXHolder K V) r hr
    TimeoutsMatch_empty
  refine ⟨r, hr, ha, ?_⟩
  intro o t ht
  refine ⟨hb o t ht, ?_⟩
  rw [HasLookupFor_iff]
  exact (hiff t.target).mpr ⟨o, hb o t ht⟩

theorem holder_consistency_witness :
    registersFreshRun 5000 (TXHolder.empty : TXHolder Key_t Nat) liveOps = true ∧
    ∃ r, run 5000 (TXHolder.empty : TXHolder Key_t Nat) liveOps = some r ∧
      (∀ k o, (k, o) ∈ r.1.waiting → ∃ t, r.1.tx o = some t ∧ t.target = k) ∧
      (∀ o t, r.1.tx o = some t →
        (t.target, o) ∈ r.1.waiting ∧ r.1.HasLookupFor t.target = true) :=
  ⟨by decide, holder_consistency 5000 liveOps (by decide)⟩

end llarp.dht
